import Mathlib

/-!
Verification of the brainfuck interpreter (`src/interpreter.rs`).

The development shallowly embeds the two-stage pipeline of the interpreter:

* `build` — the single-pass translator from source bytes to the `Op`
  instruction set, with run-length folding of `<`/`>` and `+`/`-`,
  bracket resolution through an explicit stack, and 1-based line/column
  tracking for bracket errors;
* `step` / `run` — the bounded-tape virtual machine: a 30000-cell byte
  tape, a data pointer, an instruction cursor, and byte streams for
  input and output.

Source text is modelled as a list of byte values (`List Nat`).  The input
stream is a list of outcomes of the successive one-byte `read_exact`
calls (`Except String Nat`: a byte, or an I/O failure with its message;
an exhausted list models end-of-stream).  The output stream records the
outcomes of the successive one-byte `write` calls as a list
`List (Option String)` (`none` = success, `some msg` = failure; an
exhausted list means every later write succeeds), together with the list
of bytes successfully written so far.
-/

/-- The instruction set (`enum Op` in the source). -/
inductive Op where
  | move (d : Int)
  | add (d : Int)
  | out
  | inp
  | jmpZ (addr : Nat)
  | jmpNz (addr : Nat)
  deriving DecidableEq, Repr

/-- Stack record for a pending `[` (`struct LeftBracketInfo`). -/
structure BInfo where
  line : Nat
  col : Nat
  addr : Nat
  deriving DecidableEq, Repr

inductive BuildErrorKind where
  | bracketNotMatch
  | bracketNotClosed
  deriving DecidableEq, Repr

structure BuildError where
  line : Nat
  col : Nat
  kind : BuildErrorKind
  deriving DecidableEq, Repr

inductive RuntimeErrorKind where
  | dataOverflow (idx : Int)
  | ioErr (err : String)
  deriving DecidableEq, Repr

/-- Byte is `<` (60) or `>` (62). -/
def isMv (c : Nat) : Bool := c == 60 || c == 62

/-- Byte is `+` (43) or `-` (45). -/
def isAd (c : Nat) : Bool := c == 43 || c == 45

/-- Move delta contributed by one `<`/`>` byte. -/
def mvD (c : Nat) : Int := if c == 60 then -1 else 1

/-- Add delta contributed by one `+`/`-` byte. -/
def adD (c : Nat) : Int := if c == 45 then -1 else 1

deriving instance DecidableEq for Except

theorem dropWhile_length_le (p : Nat → Bool) (l : List Nat) :
    (l.dropWhile p).length ≤ l.length := by
  induction l with
  | nil => simp
  | cons a l ih =>
    rw [List.dropWhile_cons]
    split
    · exact Nat.le_succ_of_le ih
    · simp

/-- The body of `Interpreter::build`: scans the remaining bytes carrying the
current 1-based line and column, the instructions emitted so far, and the
bracket stack (head = most recently pushed).  Runs of `<`/`>` (resp.
`+`/`-`) are folded into a single `move` (resp. `add`) whose delta is the
signed sum of the run, omitted when the sum is zero; the whole run advances
the column by one (the inner folding loop of the source advances only the
byte index).  A newline resets the column so that the next byte is at
column 1. -/
def buildGo : List Nat → Nat → Nat → List Op → List BInfo →
    Except BuildError (List Op)
  | [], _, _, result, stack =>
    match stack with
    | [] => .ok result
    | info :: _ => .error ⟨info.line, info.col, .bracketNotClosed⟩
  | c :: rest, line, col, result, stack =>
    if isMv c then
      let d : Int := mvD c + ((rest.takeWhile isMv).map mvD).sum
      buildGo (rest.dropWhile isMv) line (col + 1)
        (if d ≠ 0 then result ++ [Op.move d] else result) stack
    else if isAd c then
      let d : Int := adD c + ((rest.takeWhile isAd).map adD).sum
      buildGo (rest.dropWhile isAd) line (col + 1)
        (if d ≠ 0 then result ++ [Op.add d] else result) stack
    else if c == 46 then
      buildGo rest line (col + 1) (result ++ [Op.out]) stack
    else if c == 44 then
      buildGo rest line (col + 1) (result ++ [Op.inp]) stack
    else if c == 91 then
      buildGo rest line (col + 1) (result ++ [Op.jmpZ 0])
        (⟨line, col, result.length + 1⟩ :: stack)
    else if c == 93 then
      match stack with
      | [] => .error ⟨line, col, .bracketNotMatch⟩
      | info :: stack' =>
        buildGo rest line (col + 1)
          ((result ++ [Op.jmpNz info.addr]).set (info.addr - 1)
            (Op.jmpZ (result.length + 1)))
          stack'
    else if c == 10 then
      buildGo rest (line + 1) 1 result stack
    else
      buildGo rest line (col + 1) result stack
  termination_by bytes => bytes.length
  decreasing_by
    all_goals simp only [List.length_cons]
    · exact Nat.lt_succ_of_le (dropWhile_length_le _ _)
    · exact Nat.lt_succ_of_le (dropWhile_length_le _ _)
    all_goals exact Nat.lt_succ_self _

/-- `Interpreter::build`. -/
def build (code : List Nat) : Except BuildError (List Op) :=
  buildGo code 1 1 [] []

/-- Modelled from the spec (and claim C4): the unfolded translation of the
same source, in which every `<`, `>`, `+`, `-` byte is compiled to its own
unit-delta `move`/`add` instruction instead of being folded; brackets,
`.`, `,`, comments and newlines are treated exactly as in `buildGo`. -/
def buildUGo : List Nat → Nat → Nat → List Op → List BInfo →
    Except BuildError (List Op)
  | [], _, _, result, stack =>
    match stack with
    | [] => .ok result
    | info :: _ => .error ⟨info.line, info.col, .bracketNotClosed⟩
  | c :: rest, line, col, result, stack =>
    if isMv c then
      buildUGo rest line (col + 1) (result ++ [Op.move (mvD c)]) stack
    else if isAd c then
      buildUGo rest line (col + 1) (result ++ [Op.add (adD c)]) stack
    else if c == 46 then
      buildUGo rest line (col + 1) (result ++ [Op.out]) stack
    else if c == 44 then
      buildUGo rest line (col + 1) (result ++ [Op.inp]) stack
    else if c == 91 then
      buildUGo rest line (col + 1) (result ++ [Op.jmpZ 0])
        (⟨line, col, result.length + 1⟩ :: stack)
    else if c == 93 then
      match stack with
      | [] => .error ⟨line, col, .bracketNotMatch⟩
      | info :: stack' =>
        buildUGo rest line (col + 1)
          ((result ++ [Op.jmpNz info.addr]).set (info.addr - 1)
            (Op.jmpZ (result.length + 1)))
          stack'
    else if c == 10 then
      buildUGo rest (line + 1) 1 result stack
    else
      buildUGo rest line (col + 1) result stack

/-- The unfolded translation of a whole source text. -/
def buildU (code : List Nat) : Except BuildError (List Op) :=
  buildUGo code 1 1 [] []

/-- Result of the position-only bracket scan: either the position of the
first unmatched `]`, or the positions of the pending unmatched `[`s at end
of input (most recently pushed first). -/
inductive ScanRes where
  | notMatch (line col : Nat)
  | closed (stack : List (Nat × Nat))
  deriving DecidableEq, Repr

/-- Position-only projection of `buildGo`: traverses the source exactly as
`buildGo` does (including consuming a whole folded run per iteration while
advancing the column once) but records only the bracket positions. -/
def scanGo : List Nat → Nat → Nat → List (Nat × Nat) → ScanRes
  | [], _, _, ps => .closed ps
  | c :: rest, line, col, ps =>
    if isMv c then scanGo (rest.dropWhile isMv) line (col + 1) ps
    else if isAd c then scanGo (rest.dropWhile isAd) line (col + 1) ps
    else if c == 46 then scanGo rest line (col + 1) ps
    else if c == 44 then scanGo rest line (col + 1) ps
    else if c == 91 then scanGo rest line (col + 1) ((line, col) :: ps)
    else if c == 93 then
      match ps with
      | [] => .notMatch line col
      | _ :: ps' => scanGo rest line (col + 1) ps'
    else if c == 10 then scanGo rest (line + 1) 1 ps
    else scanGo rest line (col + 1) ps
  termination_by bytes => bytes.length
  decreasing_by
    all_goals simp only [List.length_cons]
    · exact Nat.lt_succ_of_le (dropWhile_length_le _ _)
    · exact Nat.lt_succ_of_le (dropWhile_length_le _ _)
    all_goals exact Nat.lt_succ_self _

/-- Truncation of an integer to an unsigned byte (`as u8` on an `isize`). -/
def wrap8 (x : Int) : Nat := (x % 256).toNat

/-- The error message of a one-byte `read_exact` at end of stream. -/
def eofMsg : String := "failed to fill whole buffer"

/-- Executor state: instruction cursor (`i_offset`), the tape (`data`,
modelled as a total function — the move bound check keeps the pointer in
`[0, 30000)`), the data pointer (`d_offset`), the remaining read outcomes,
the remaining planned write outcomes, and the bytes written so far. -/
structure EState where
  ip : Nat
  tape : Nat → Nat
  ptr : Nat
  rdr : List (Except String Nat)
  wr : List (Option String)
  out : List Nat

/-- Result of one iteration of the executor loop: continue with a new
state, or terminate (normally or with a runtime error) in a final state. -/
inductive StepRes where
  | next (s : EState)
  | done (r : Except RuntimeErrorKind Unit) (s : EState)

/-- The state carried by a `StepRes`. -/
def resState : StepRes → EState
  | .next s => s
  | .done _ s => s

/-- One iteration of the `while` loop of `Interpreter::execute`, including
the final `i_offset += 1` of the iteration.  When the cursor is past the
end of the instruction sequence the loop exits normally. -/
def step (ops : List Op) (s : EState) : StepRes :=
  match ops[s.ip]? with
  | none => .done (.ok ()) s
  | some op =>
    match op with
    | .move d =>
      if (d < 0 ∧ -d > (s.ptr : Int)) ∨ (s.ptr : Int) + d ≥ 30000 then
        .done (.error (.dataOverflow ((s.ptr : Int) + d))) s
      else
        .next { s with ip := s.ip + 1, ptr := ((s.ptr : Int) + d).toNat }
    | .add d =>
      .next { s with
              ip := s.ip + 1
              tape := fun j => if j = s.ptr then wrap8 ((s.tape s.ptr : Int) + d)
                               else s.tape j }
    | .out =>
      match s.wr with
      | some msg :: _ => .done (.error (.ioErr msg)) s
      | none :: wr' =>
        .next { s with
                ip := s.ip + 1
                wr := wr'
                out := s.out ++ [s.tape s.ptr] }
      | [] =>
        .next { s with
                ip := s.ip + 1
                out := s.out ++ [s.tape s.ptr] }
    | .inp =>
      match s.rdr with
      | [] => .done (.error (.ioErr eofMsg)) s
      | .error msg :: _ => .done (.error (.ioErr msg)) s
      | .ok b :: rdr' =>
        .next { s with
                ip := s.ip + 1
                tape := fun j => if j = s.ptr then b % 256 else s.tape j
                rdr := rdr' }
    | .jmpZ a =>
      .next { s with ip := if s.tape s.ptr = 0 then (a - 1) + 1 else s.ip + 1 }
    | .jmpNz a =>
      .next { s with ip := if s.tape s.ptr ≠ 0 then (a - 1) + 1 else s.ip + 1 }

/-- Fuel-indexed iteration of `step`: `none` when the fuel runs out before
the loop terminates, otherwise the outcome together with the final state. -/
def run (ops : List Op) : Nat → EState →
    Option (Except RuntimeErrorKind Unit × EState)
  | 0, _ => none
  | fuel + 1, s =>
    match step ops s with
    | .done r s' => some (r, s')
    | .next s' => run ops fuel s'

/-- The state at the start of `Interpreter::execute`: zeroed tape, data
pointer 0, cursor 0, the given streams, nothing written yet. -/
def initState (rdr : List (Except String Nat)) (wr : List (Option String)) :
    EState :=
  ⟨0, fun _ => 0, 0, rdr, wr, []⟩

-- Sanity checks against the source's unit tests.
example :
    build [60, 43, 62, 45, 46, 44, 91, 93] =
      .ok [Op.move (-1), Op.add 1, Op.move 1, Op.add (-1), Op.out, Op.inp,
           Op.jmpZ 8, Op.jmpNz 7] := by
  simp [build, buildGo, isMv, isAd, mvD, adD, List.dropWhile, List.takeWhile]

example :
    build [60, 62, 60, 60, 62, 62, 60, 43, 45, 43, 43, 45, 45, 43, 60, 62,
           43, 45] = .ok [Op.move (-1), Op.add 1] := by
  simp [build, buildGo, isMv, isAd, mvD, adD, List.dropWhile, List.takeWhile]

example :
    build [91, 91, 10, 93, 93, 93, 43, 43, 43] =
      .error ⟨2, 3, .bracketNotMatch⟩ := by
  simp [build, buildGo, isMv, isAd, mvD, adD, List.dropWhile, List.takeWhile]

example :
    build [91, 91, 91, 10, 93, 93, 43, 43] =
      .error ⟨1, 1, .bracketNotClosed⟩ := by
  simp [build, buildGo, isMv, isAd, mvD, adD, List.dropWhile, List.takeWhile]

/-- C3: executing `Move d` fails with `DataOverflow` if and only if the new
pointer position `ptr + d` would be negative or `≥ 30000`; on failure the
error carries the attempted out-of-range index verbatim and the state
(in particular the tape) is left unchanged; otherwise the pointer becomes
the new position and nothing else changes. -/
theorem move_step_spec (ops : List Op) (s : EState) (d : Int)
    (h : ops[s.ip]? = some (Op.move d)) :
    ((s.ptr : Int) + d < 0 ∨ (s.ptr : Int) + d ≥ 30000 →
      step ops s = .done (.error (.dataOverflow ((s.ptr : Int) + d))) s) ∧
    (0 ≤ (s.ptr : Int) + d → (s.ptr : Int) + d < 30000 →
      step ops s = .next { s with ip := s.ip + 1, ptr := ((s.ptr : Int) + d).toNat }) := by
  constructor
  · intro hoob
    simp only [step, h]
    split
    · rfl
    · rename_i hc
      exfalso
      omega
  · intro h0 h30
    simp only [step, h]
    split
    · rename_i hc
      exfalso
      omega
    · rfl

/-- Witness for `move_step_spec`: from pointer 0, `Move 29999` succeeds and
lands on index 29999, while a subsequent `Move 1` from 29999 fails with
`DataOverflow 30000`, and `Move (-1)` from 0 fails with `DataOverflow (-1)`. -/
theorem move_step_spec_witness :
    step [Op.move 29999] ⟨0, fun _ => 0, 0, [], [], []⟩ =
      .next { (⟨0, fun _ => 0, 0, [], [], []⟩ : EState) with ip := 1, ptr := ((0 : Int) + 29999).toNat } ∧
    step [Op.move 1] ⟨0, fun _ => 0, 29999, [], [], []⟩ =
      .done (.error (.dataOverflow (((29999 : Nat) : Int) + 1))) ⟨0, fun _ => 0, 29999, [], [], []⟩ ∧
    step [Op.move (-1)] ⟨0, fun _ => 0, 0, [], [], []⟩ =
      .done (.error (.dataOverflow (((0 : Nat) : Int) + -1))) ⟨0, fun _ => 0, 0, [], [], []⟩ := by
  refine ⟨?_, ?_, ?_⟩
  · exact (move_step_spec [Op.move 29999] ⟨0, fun _ => 0, 0, [], [], []⟩ 29999 rfl).2
      (by decide) (by decide)
  · exact (move_step_spec [Op.move 1] ⟨0, fun _ => 0, 29999, [], [], []⟩ 1 rfl).1
      (by norm_num)
  · exact (move_step_spec [Op.move (-1)] ⟨0, fun _ => 0, 0, [], [], []⟩ (-1) rfl).1
      (by norm_num)

/-- C8: executing `Add d` never fails and adds `d` to the current cell with
unsigned 8-bit wraparound (the new cell is the old cell plus `d` modulo
256); pointer, cursor-successor behaviour, streams, output and all other
tape cells are untouched. -/
theorem add_step_spec (ops : List Op) (s : EState) (d : Int)
    (h : ops[s.ip]? = some (Op.add d)) :
    ∃ s', step ops s = .next s' ∧ s'.ip = s.ip + 1 ∧ s'.ptr = s.ptr ∧
      s'.rdr = s.rdr ∧ s'.wr = s.wr ∧ s'.out = s.out ∧
      (s'.tape s.ptr : Int) % 256 = ((s.tape s.ptr : Int) + d) % 256 ∧
      s'.tape s.ptr < 256 ∧
      ∀ j, j ≠ s.ptr → s'.tape j = s.tape j := by
  refine ⟨{ s with
            ip := s.ip + 1
            tape := fun j => if j = s.ptr then wrap8 ((s.tape s.ptr : Int) + d)
                             else s.tape j },
    by simp only [step, h], rfl, rfl, rfl, rfl, rfl, ?_, ?_, ?_⟩
  · simp [wrap8]
    omega
  · simp [wrap8]
    omega
  · intro j hj
    simp only [if_neg hj]

/-- Witness for `add_step_spec`: incrementing a cell holding 255 yields 0
(and decrementing a cell holding 0 yields 255). -/
theorem add_step_spec_witness :
    (∃ s', step [Op.add 1] ⟨0, fun _ => 255, 0, [], [], []⟩ = .next s' ∧
      s'.tape 0 = 0) ∧
    (∃ s', step [Op.add (-1)] ⟨0, fun _ => 0, 0, [], [], []⟩ = .next s' ∧
      s'.tape 0 = 255) := by
  constructor
  · obtain ⟨s', h1, -, -, -, -, -, hmod, hlt, -⟩ :=
      add_step_spec [Op.add 1] ⟨0, fun _ => 255, 0, [], [], []⟩ 1 rfl
    refine ⟨s', h1, ?_⟩
    simp at hmod hlt
    omega
  · obtain ⟨s', h1, -, -, -, -, -, hmod, hlt, -⟩ :=
      add_step_spec [Op.add (-1)] ⟨0, fun _ => 0, 0, [], [], []⟩ (-1) rfl
    refine ⟨s', h1, ?_⟩
    simp at hmod hlt
    omega

/-- C6: executing `Output` with a failing write aborts immediately with an
IO runtime error carrying the underlying error message verbatim (nothing is
appended to the output); with a succeeding write it appends exactly the
current cell's byte to the output, consumes one write outcome, and touches
nothing else. -/
theorem out_step_spec (ops : List Op) (s : EState)
    (h : ops[s.ip]? = some Op.out) :
    (∀ msg rest, s.wr = some msg :: rest →
      step ops s = .done (.error (.ioErr msg)) s) ∧
    (∀ rest, s.wr = none :: rest →
      step ops s = .next { s with
                           ip := s.ip + 1
                           wr := rest
                           out := s.out ++ [s.tape s.ptr] }) ∧
    (s.wr = [] →
      step ops s = .next { s with
                           ip := s.ip + 1
                           out := s.out ++ [s.tape s.ptr] }) := by
  refine ⟨fun msg rest hw => ?_, fun rest hw => ?_, fun hw => ?_⟩
  all_goals simp only [step, h, hw]

/-- Witness for `out_step_spec`: a failing write surfaces its message and
aborts; a successful write emits exactly the current cell. -/
theorem out_step_spec_witness :
    step [Op.out] ⟨0, fun _ => 7, 0, [], [some "write"], []⟩ =
      .done (.error (.ioErr "write")) ⟨0, fun _ => 7, 0, [], [some "write"], []⟩ ∧
    step [Op.out] ⟨0, fun _ => 7, 0, [], [], []⟩ =
      .next { (⟨0, fun _ => 7, 0, [], [], []⟩ : EState) with
              ip := 1
              out := [] ++ [7] } := by
  constructor
  · exact (out_step_spec [Op.out] ⟨0, fun _ => 7, 0, [], [some "write"], []⟩ rfl).1
      "write" [] rfl
  · exact (out_step_spec [Op.out] ⟨0, fun _ => 7, 0, [], [], []⟩ rfl).2.2 rfl

/-- C7: executing `Input` with an available byte stores exactly that byte in
the cell at the current pointer and consumes it from the stream; reaching
end-of-stream (no byte available) or a failing read aborts immediately with
an IO runtime error — never a silent no-op. -/
theorem inp_step_spec (ops : List Op) (s : EState)
    (h : ops[s.ip]? = some Op.inp) :
    (s.rdr = [] → step ops s = .done (.error (.ioErr eofMsg)) s) ∧
    (∀ msg rest, s.rdr = .error msg :: rest →
      step ops s = .done (.error (.ioErr msg)) s) ∧
    (∀ b rest, s.rdr = .ok b :: rest →
      step ops s = .next { s with
                           ip := s.ip + 1
                           tape := fun j => if j = s.ptr then b % 256 else s.tape j
                           rdr := rest }) := by
  refine ⟨fun hr => ?_, fun msg rest hr => ?_, fun b rest hr => ?_⟩
  all_goals simp only [step, h, hr]

/-- Witness for `inp_step_spec`: end-of-stream is an error that aborts the
run, and an available byte is stored in the current cell. -/
theorem inp_step_spec_witness :
    step [Op.inp] ⟨0, fun _ => 0, 0, [], [], []⟩ =
      .done (.error (.ioErr eofMsg)) ⟨0, fun _ => 0, 0, [], [], []⟩ ∧
    step [Op.inp] ⟨0, fun _ => 0, 0, [.ok 104], [], []⟩ =
      .next { (⟨0, fun _ => 0, 0, [.ok 104], [], []⟩ : EState) with
              ip := 1
              tape := fun j => if j = 0 then 104 % 256 else 0
              rdr := [] } := by
  constructor
  · exact (inp_step_spec [Op.inp] ⟨0, fun _ => 0, 0, [], [], []⟩ rfl).1 rfl
  · exact (inp_step_spec [Op.inp] ⟨0, fun _ => 0, 0, [.ok 104], [], []⟩ rfl).2.2 104 [] rfl

/-- C9: no instruction mutates any tape cell other than the one at the
current pointer; `Move` leaves the whole tape unchanged; `Output`,
`JumpIfZero` and `JumpIfNotZero` leave both the tape and the pointer
unchanged. -/
theorem frame_step_spec (ops : List Op) (s : EState) :
    (∀ j, j ≠ s.ptr → (resState (step ops s)).tape j = s.tape j) ∧
    (∀ d, ops[s.ip]? = some (Op.move d) → (resState (step ops s)).tape = s.tape) ∧
    ((ops[s.ip]? = some Op.out ∨ (∃ a, ops[s.ip]? = some (Op.jmpZ a)) ∨
       (∃ a, ops[s.ip]? = some (Op.jmpNz a))) →
      (resState (step ops s)).tape = s.tape ∧ (resState (step ops s)).ptr = s.ptr) := by
  refine ⟨?_, ?_, ?_⟩
  · intro j hj
    rcases hop : ops[s.ip]? with - | op
    · simp [step, hop, resState]
    · cases op with
      | move d =>
        simp only [step, hop]
        split
        · rfl
        · rfl
      | add d =>
        simp only [step, hop, resState]
        simp [if_neg hj]
      | out =>
        simp only [step, hop]
        rcases s.wr with - | ⟨- | msg, wr'⟩
        all_goals rfl
      | inp =>
        simp only [step, hop]
        rcases s.rdr with - | ⟨msg | b, rdr'⟩
        · rfl
        · rfl
        · simp only [resState]
          simp [if_neg hj]
      | jmpZ a => simp [step, hop, resState]
      | jmpNz a => simp [step, hop, resState]
  · intro d hop
    simp only [step, hop]
    split
    · rfl
    · rfl
  · intro hop
    rcases hop with hop | ⟨a, hop⟩ | ⟨a, hop⟩
    · simp only [step, hop]
      rcases s.wr with - | ⟨- | msg, wr'⟩
      all_goals exact ⟨rfl, rfl⟩
    · simp only [step, hop]
      exact ⟨rfl, rfl⟩
    · simp only [step, hop]
      exact ⟨rfl, rfl⟩

/-- Witness for `frame_step_spec` at a concrete `Add` step: the cell away
from the pointer is untouched, and `Move`/`Out` leave tape and pointer
unchanged. -/
theorem frame_step_spec_witness :
    (resState (step [Op.add 5] ⟨0, fun _ => 9, 3, [], [], []⟩)).tape 0 = 9 ∧
    (resState (step [Op.move 1] ⟨0, fun _ => 9, 3, [], [], []⟩)).tape = (fun _ => 9) ∧
    (resState (step [Op.out] ⟨0, fun _ => 9, 3, [], [], []⟩)).ptr = 3 := by
  refine ⟨?_, ?_, ?_⟩
  · exact (frame_step_spec [Op.add 5] ⟨0, fun _ => 9, 3, [], [], []⟩).1 0 (by decide)
  · exact (frame_step_spec [Op.move 1] ⟨0, fun _ => 9, 3, [], [], []⟩).2.1 1 rfl
  · exact ((frame_step_spec [Op.out] ⟨0, fun _ => 9, 3, [], [], []⟩).2.2 (Or.inl rfl)).2

/-- Counterexample to C1 as stated: in the source `"[["` both open brackets
are unmatched and the first one pushed (the outermost, bottom of the stack)
is at line 1 column 1, but `build` reports line 1 column 2 — the position of
the most recently pushed entry, popped from the top of the stack. -/
theorem bracketNotClosed_counterexample :
    build [91, 91] = .error ⟨1, 2, .bracketNotClosed⟩ ∧
    build [91, 91] ≠ .error ⟨1, 1, .bracketNotClosed⟩ := by
  constructor
  · simp [build, buildGo, isMv, isAd]
  · simp [build, buildGo, isMv, isAd]

/-- Counterexample to C2 as stated: in the source `"++]"` the unmatched `]`
is the third byte of line 1, so under per-byte column counting it sits at
column 3; but the folding loop advances the column only once for the whole
`++` run, so `build` reports column 2. -/
theorem bracketNotMatch_counterexample :
    build [43, 43, 93] = .error ⟨1, 2, .bracketNotMatch⟩ ∧
    build [43, 43, 93] ≠ .error ⟨1, 3, .bracketNotMatch⟩ := by
  constructor
  · simp [build, buildGo, isMv, isAd, List.dropWhile, List.takeWhile]
  · simp [build, buildGo, isMv, isAd, List.dropWhile, List.takeWhile]

/-- The bracket-error behaviour of `buildGo` is characterised by the
position-only scan `scanGo`, provided the byte position and the bracket
positions on the two stacks agree. -/
theorem scan_build_align (bytes : List Nat) (line col : Nat) (result : List Op)
    (stack : List BInfo) :
    (∀ l c, scanGo bytes line col (stack.map fun i => (i.line, i.col)) = .notMatch l c →
      buildGo bytes line col result stack = .error ⟨l, c, .bracketNotMatch⟩) ∧
    (∀ l c ps, scanGo bytes line col (stack.map fun i => (i.line, i.col)) = .closed ((l, c) :: ps) →
      buildGo bytes line col result stack = .error ⟨l, c, .bracketNotClosed⟩) := by
  induction bytes, line, col, result, stack using buildGo.induct with
  | case1 line col result =>
    refine ⟨fun l c h => ?_, fun l c ps h => ?_⟩
    · rw [scanGo.eq_def] at h
      simp at h
    · rw [scanGo.eq_def] at h
      simp at h
  | case2 line col result info tail =>
    refine ⟨fun l c h => ?_, fun l c ps h => ?_⟩
    · rw [scanGo.eq_def] at h
      simp at h
    · rw [scanGo.eq_def] at h
      simp only [List.map_cons, ScanRes.closed.injEq, List.cons.injEq,
        Prod.mk.injEq] at h
      rw [buildGo.eq_def]
      show (Except.error ⟨info.line, info.col, BuildErrorKind.bracketNotClosed⟩ :
        Except BuildError (List Op)) = .error ⟨l, c, .bracketNotClosed⟩
      rw [h.1.1, h.1.2]
  | case3 c rest line col result stack hmv d ih =>
    refine ⟨fun l cc h => ?_, fun l cc ps h => ?_⟩
    all_goals rw [scanGo.eq_def] at h
    all_goals rw [buildGo.eq_def]
    all_goals simp only [hmv, if_true] at h ⊢
    exacts [ih.1 l cc h, ih.2 l cc ps h]
  | case4 c rest line col result stack hmv had d ih =>
    refine ⟨fun l cc h => ?_, fun l cc ps h => ?_⟩
    all_goals rw [scanGo.eq_def] at h
    all_goals rw [buildGo.eq_def]
    all_goals simp only [hmv, had, if_true, if_false, Bool.false_eq_true] at h ⊢
    exacts [ih.1 l cc h, ih.2 l cc ps h]
  | case5 c rest line col result stack hmv had hdot ih =>
    refine ⟨fun l cc h => ?_, fun l cc ps h => ?_⟩
    all_goals rw [scanGo.eq_def] at h
    all_goals rw [buildGo.eq_def]
    all_goals simp only [hmv, had, hdot, if_true, if_false, Bool.false_eq_true] at h ⊢
    exacts [ih.1 l cc h, ih.2 l cc ps h]
  | case6 c rest line col result stack hmv had hdot hcom ih =>
    refine ⟨fun l cc h => ?_, fun l cc ps h => ?_⟩
    all_goals rw [scanGo.eq_def] at h
    all_goals rw [buildGo.eq_def]
    all_goals simp only [hmv, had, hdot, hcom, if_true, if_false, Bool.false_eq_true] at h ⊢
    exacts [ih.1 l cc h, ih.2 l cc ps h]
  | case7 c rest line col result stack hmv had hdot hcom hlb ih =>
    refine ⟨fun l cc h => ?_, fun l cc ps h => ?_⟩
    all_goals rw [scanGo.eq_def] at h
    all_goals rw [buildGo.eq_def]
    all_goals simp only [hmv, had, hdot, hcom, hlb, if_true, if_false, Bool.false_eq_true,
      List.map_cons] at h ⊢
    exacts [ih.1 l cc h, ih.2 l cc ps h]
  | case8 c rest line col result hmv had hdot hcom hlb hrb =>
    refine ⟨fun l cc h => ?_, fun l cc ps h => ?_⟩
    all_goals rw [scanGo.eq_def] at h
    all_goals rw [buildGo.eq_def]
    all_goals simp only [hmv, had, hdot, hcom, hlb, hrb, if_true, if_false, Bool.false_eq_true,
      List.map_nil] at h ⊢
    · simp only [ScanRes.notMatch.injEq] at h
      rw [h.1, h.2]
    · exact absurd h (by simp)
  | case9 c rest line col result hmv had hdot hcom hlb hrb info tail ih =>
    refine ⟨fun l cc h => ?_, fun l cc ps h => ?_⟩
    all_goals rw [scanGo.eq_def] at h
    all_goals rw [buildGo.eq_def]
    all_goals simp only [hmv, had, hdot, hcom, hlb, hrb, if_true, if_false, Bool.false_eq_true,
      List.map_cons] at h ⊢
    exacts [ih.1 l cc h, ih.2 l cc ps h]
  | case10 c rest line col result stack hmv had hdot hcom hlb hrb hnl ih =>
    refine ⟨fun l cc h => ?_, fun l cc ps h => ?_⟩
    all_goals rw [scanGo.eq_def] at h
    all_goals rw [buildGo.eq_def]
    all_goals simp only [hmv, had, hdot, hcom, hlb, hrb, hnl, if_true,
      if_false] at h ⊢
    exacts [ih.1 l cc h, ih.2 l cc ps h]
  | case11 c rest line col result stack hmv had hdot hcom hlb hrb hnl ih =>
    refine ⟨fun l cc h => ?_, fun l cc ps h => ?_⟩
    all_goals rw [scanGo.eq_def] at h
    all_goals rw [buildGo.eq_def]
    all_goals simp only [hmv, had, hdot, hcom, hlb, hrb, hnl, if_true,
      if_false] at h ⊢
    exacts [ih.1 l cc h, ih.2 l cc ps h]

/-- C1 (amended): if the source ends with one or more unmatched open
brackets, `build` fails with `BracketNotClosed` reporting the 1-based line
and column of the *innermost* unmatched open bracket — the most recently
pushed entry that was never popped, i.e. the top of the bracket stack (the
head of the position scan's final stack), not the bottom. -/
theorem bracketNotClosed_spec (code : List Nat) (l c : Nat) (ps : List (Nat × Nat))
    (h : scanGo code 1 1 [] = .closed ((l, c) :: ps)) :
    build code = .error ⟨l, c, .bracketNotClosed⟩ :=
  (scan_build_align code 1 1 [] []).2 l c ps h

/-- Witness for `bracketNotClosed_spec`: for `"[["` the final scan stack is
`[(1,2), (1,1)]` (innermost first) and `build` reports line 1, column 2. -/
theorem bracketNotClosed_spec_witness :
    scanGo [91, 91] 1 1 [] = .closed [(1, 2), (1, 1)] ∧
    build [91, 91] = .error ⟨1, 2, .bracketNotClosed⟩ := by
  have hscan : scanGo [91, 91] 1 1 [] = .closed [(1, 2), (1, 1)] := by
    rw [scanGo.eq_def]
    norm_num [isMv, isAd]
    rw [scanGo.eq_def]
    norm_num [isMv, isAd]
    rw [scanGo.eq_def]
  exact ⟨hscan, bracketNotClosed_spec [91, 91] 1 2 [(1, 1)] hscan⟩

/-- C2 (amended): for every source text containing a close bracket `]` with
no corresponding open bracket, `build` fails with `BracketNotMatch` at the
1-based line and column that the scanner assigns to that `]`, where the
column advances by one per dispatch iteration — an entire folded run of
consecutive `<`/`>` (or `+`/`-`) advances the column by exactly one, every
other consumed byte (including ignored comment bytes) advances it by one —
and the first byte after a newline gets column 1. -/
theorem bracketNotMatch_spec (code : List Nat) (l c : Nat)
    (h : scanGo code 1 1 [] = .notMatch l c) :
    build code = .error ⟨l, c, .bracketNotMatch⟩ :=
  (scan_build_align code 1 1 [] []).1 l c h

/-- Witness for `bracketNotMatch_spec`: in `"++]"` the folded `++` run
advances the column once, so the unmatched `]` is assigned column 2 and
`build` reports it there. -/
theorem bracketNotMatch_spec_witness :
    scanGo [43, 43, 93] 1 1 [] = .notMatch 1 2 ∧
    build [43, 43, 93] = .error ⟨1, 2, .bracketNotMatch⟩ := by
  have hscan : scanGo [43, 43, 93] 1 1 [] = .notMatch 1 2 := by
    rw [scanGo.eq_def]
    norm_num [isMv, isAd]
    rw [scanGo.eq_def]
    norm_num [isMv, isAd]
  exact ⟨hscan, bracketNotMatch_spec [43, 43, 93] 1 2 hscan⟩

/-- Balanced instruction sequences starting at absolute address `n`: every
`jmpZ` opens a loop whose body is balanced, the matching `jmpNz` sits right
after the body, the `jmpZ`'s target is the address immediately after that
`jmpNz`, and the `jmpNz`'s target is the address immediately after the
`jmpZ`. -/
inductive BalAt : Nat → List Op → Prop
  | nil (n : Nat) : BalAt n []
  | move (n : Nat) (d : Int) (rest : List Op) :
      BalAt (n + 1) rest → BalAt n (Op.move d :: rest)
  | add (n : Nat) (d : Int) (rest : List Op) :
      BalAt (n + 1) rest → BalAt n (Op.add d :: rest)
  | out (n : Nat) (rest : List Op) :
      BalAt (n + 1) rest → BalAt n (Op.out :: rest)
  | inp (n : Nat) (rest : List Op) :
      BalAt (n + 1) rest → BalAt n (Op.inp :: rest)
  | loop (n : Nat) (body rest : List Op) :
      BalAt (n + 1) body → BalAt (n + body.length + 2) rest →
      BalAt n (Op.jmpZ (n + body.length + 2) :: body ++ Op.jmpNz (n + 1) :: rest)

theorem balAt_append {n : Nat} {xs ys : List Op}
    (hx : BalAt n xs) (hy : BalAt (n + xs.length) ys) : BalAt n (xs ++ ys) := by
  induction hx with
  | nil n => simpa using hy
  | move n d rest hrest ih =>
    apply BalAt.move
    apply ih
    have he : n + (Op.move d :: rest).length = n + 1 + rest.length := by
      simp only [List.length_cons]
      omega
    rw [he] at hy
    exact hy
  | add n d rest hrest ih =>
    apply BalAt.add
    apply ih
    have he : n + (Op.add d :: rest).length = n + 1 + rest.length := by
      simp only [List.length_cons]
      omega
    rw [he] at hy
    exact hy
  | out n rest hrest ih =>
    apply BalAt.out
    apply ih
    have he : n + (Op.out :: rest).length = n + 1 + rest.length := by
      simp only [List.length_cons]
      omega
    rw [he] at hy
    exact hy
  | inp n rest hrest ih =>
    apply BalAt.inp
    apply ih
    have he : n + (Op.inp :: rest).length = n + 1 + rest.length := by
      simp only [List.length_cons]
      omega
    rw [he] at hy
    exact hy
  | loop n body rest hbody hrest ihb ihr =>
    have he : n + (Op.jmpZ (n + body.length + 2) :: body ++ Op.jmpNz (n + 1) :: rest).length =
        n + body.length + 2 + rest.length := by
      simp only [List.length_cons, List.length_append]
      omega
    rw [he] at hy
    have h2 : BalAt (n + body.length + 2) (rest ++ ys) := ihr hy
    have := BalAt.loop n body (rest ++ ys) hbody h2
    simpa using this

theorem set_append_len {α : Type} (l1 : List α) (x y : α) (l2 : List α) :
    (l1 ++ x :: l2).set l1.length y = l1 ++ y :: l2 := by
  induction l1 with
  | nil => rfl
  | cons a t ih => simp [List.set, ih]

/-- Invariant of `buildGo`'s accumulator: the emitted prefix decomposes into
balanced segments separated by the `jmpZ 0` placeholders recorded on the
bracket stack (head = innermost), and each stack record's address points
just past its placeholder. -/
inductive SInv : List Op → List BInfo → Prop
  | nil (r : List Op) : BalAt 0 r → SInv r []
  | cons (r : List Op) (stack : List BInfo) (info : BInfo) (seg : List Op) :
      SInv r stack → info.addr = r.length + 1 → BalAt (r.length + 1) seg →
      SInv (r ++ Op.jmpZ 0 :: seg) (info :: stack)

theorem sinv_append {r : List Op} {stack : List BInfo} {xs : List Op}
    (h : SInv r stack) (hxs : BalAt r.length xs) : SInv (r ++ xs) stack := by
  cases h with
  | nil r hr =>
    refine SInv.nil (r ++ xs) (balAt_append hr ?_)
    rw [Nat.zero_add]
    exact hxs
  | cons r' stack info seg hs haddr hseg =>
    have hlen : (r' ++ Op.jmpZ 0 :: seg).length = r'.length + 1 + seg.length := by
      simp
      omega
    rw [hlen] at hxs
    have hseg' : BalAt (r'.length + 1) (seg ++ xs) := balAt_append hseg hxs
    have := SInv.cons r' stack info (seg ++ xs) hs haddr hseg'
    simpa using this

theorem sinv_simple {r : List Op} {stack : List BInfo} (h : SInv r stack)
    (op : Op) (hop : ∀ n, BalAt n [op]) : SInv (r ++ [op]) stack :=
  sinv_append h (hop r.length)

/-- `buildGo` preserves the stack invariant, and on success its output is a
balanced sequence. -/
theorem buildGo_balanced (bytes : List Nat) (line col : Nat) (result : List Op)
    (stack : List BInfo) :
    SInv result stack → ∀ ops, buildGo bytes line col result stack = .ok ops →
      BalAt 0 ops := by
  induction bytes, line, col, result, stack using buildGo.induct with
  | case1 line col result =>
    intro inv ops h
    rw [buildGo.eq_def] at h
    simp only [Except.ok.injEq] at h
    cases inv with
    | nil r hr => exact h ▸ hr
  | case2 line col result info tail =>
    intro inv ops h
    rw [buildGo.eq_def] at h
    simp at h
  | case3 c rest line col result stack hmv d ih =>
    intro inv ops h
    rw [buildGo.eq_def] at h
    simp only [hmv, if_true] at h
    refine ih ?_ ops h
    split
    · exact sinv_simple inv _ (fun n => BalAt.move n _ [] (BalAt.nil (n + 1)))
    · exact inv
  | case4 c rest line col result stack hmv had d ih =>
    intro inv ops h
    rw [buildGo.eq_def] at h
    simp only [hmv, had, if_true, if_false, Bool.false_eq_true] at h
    refine ih ?_ ops h
    split
    · exact sinv_simple inv _ (fun n => BalAt.add n _ [] (BalAt.nil (n + 1)))
    · exact inv
  | case5 c rest line col result stack hmv had hdot ih =>
    intro inv ops h
    rw [buildGo.eq_def] at h
    simp only [hmv, had, hdot, if_true, if_false, Bool.false_eq_true] at h
    exact ih (sinv_simple inv _ (fun n => BalAt.out n [] (BalAt.nil (n + 1)))) ops h
  | case6 c rest line col result stack hmv had hdot hcom ih =>
    intro inv ops h
    rw [buildGo.eq_def] at h
    simp only [hmv, had, hdot, hcom, if_true, if_false, Bool.false_eq_true] at h
    exact ih (sinv_simple inv _ (fun n => BalAt.inp n [] (BalAt.nil (n + 1)))) ops h
  | case7 c rest line col result stack hmv had hdot hcom hlb ih =>
    intro inv ops h
    rw [buildGo.eq_def] at h
    simp only [hmv, had, hdot, hcom, hlb, if_true, if_false, Bool.false_eq_true] at h
    refine ih ?_ ops h
    have := SInv.cons result stack ⟨line, col, result.length + 1⟩ [] inv rfl
      (BalAt.nil (result.length + 1))
    simpa using this
  | case8 c rest line col result hmv had hdot hcom hlb hrb =>
    intro inv ops h
    rw [buildGo.eq_def] at h
    simp [hmv, had, hdot, hcom, hlb, hrb] at h
  | case9 c rest line col result hmv had hdot hcom hlb hrb info tail ih =>
    intro inv ops h
    rw [buildGo.eq_def] at h
    simp only [hmv, had, hdot, hcom, hlb, hrb, if_true, if_false, Bool.false_eq_true] at h
    refine ih ?_ ops h
    cases inv with
    | cons r' stack' info' seg hs haddr hseg =>
      have hidx : info.addr - 1 = r'.length := by
        rw [haddr]
        omega
      have hlen2 : (r' ++ Op.jmpZ 0 :: seg).length + 1 = r'.length + seg.length + 2 := by
        simp
        omega
      have hassoc : (r' ++ Op.jmpZ 0 :: seg) ++ [Op.jmpNz info.addr] =
          r' ++ Op.jmpZ 0 :: (seg ++ [Op.jmpNz info.addr]) := by
        simp
      have hshape : ((r' ++ Op.jmpZ 0 :: seg) ++ [Op.jmpNz info.addr]).set (info.addr - 1)
          (Op.jmpZ ((r' ++ Op.jmpZ 0 :: seg).length + 1)) =
          r' ++ Op.jmpZ (r'.length + seg.length + 2) ::
            (seg ++ Op.jmpNz (r'.length + 1) :: []) := by
        rw [hidx, hlen2, hassoc, set_append_len, haddr]
      rw [hshape]
      refine sinv_append hs ?_
      have := BalAt.loop r'.length seg [] hseg (BalAt.nil (r'.length + seg.length + 2))
      simpa using this
  | case10 c rest line col result stack hmv had hdot hcom hlb hrb hnl ih =>
    intro inv ops h
    rw [buildGo.eq_def] at h
    simp only [hmv, had, hdot, hcom, hlb, hrb, hnl, if_true, if_false,
      Bool.false_eq_true] at h
    exact ih inv ops h
  | case11 c rest line col result stack hmv had hdot hcom hlb hrb hnl ih =>
    intro inv ops h
    rw [buildGo.eq_def] at h
    simp only [hmv, had, hdot, hcom, hlb, hrb, hnl, if_true, if_false,
      Bool.false_eq_true] at h
    exact ih inv ops h

theorem balAt_target_range {n : Nat} {ops : List Op} (h : BalAt n ops) :
    ∀ a, Op.jmpZ a ∈ ops ∨ Op.jmpNz a ∈ ops → n + 1 ≤ a ∧ a ≤ n + ops.length := by
  induction h with
  | nil n =>
    intro a ha
    rcases ha with ha | ha <;> simp at ha
  | move n d rest hrest ih =>
    intro a ha
    have h2 := ih a (by
      rcases ha with ha | ha
      · rcases List.mem_cons.mp ha with h | h
        · cases h
        · exact Or.inl h
      · rcases List.mem_cons.mp ha with h | h
        · cases h
        · exact Or.inr h)
    simp only [List.length_cons]
    omega
  | add n d rest hrest ih =>
    intro a ha
    have h2 := ih a (by
      rcases ha with ha | ha
      · rcases List.mem_cons.mp ha with h | h
        · cases h
        · exact Or.inl h
      · rcases List.mem_cons.mp ha with h | h
        · cases h
        · exact Or.inr h)
    simp only [List.length_cons]
    omega
  | out n rest hrest ih =>
    intro a ha
    have h2 := ih a (by
      rcases ha with ha | ha
      · rcases List.mem_cons.mp ha with h | h
        · cases h
        · exact Or.inl h
      · rcases List.mem_cons.mp ha with h | h
        · cases h
        · exact Or.inr h)
    simp only [List.length_cons]
    omega
  | inp n rest hrest ih =>
    intro a ha
    have h2 := ih a (by
      rcases ha with ha | ha
      · rcases List.mem_cons.mp ha with h | h
        · cases h
        · exact Or.inl h
      · rcases List.mem_cons.mp ha with h | h
        · cases h
        · exact Or.inr h)
    simp only [List.length_cons]
    omega
  | loop n body rest hbody hrest ihb ihr =>
    intro a ha
    simp only [List.length_cons, List.length_append]
    have key : a = n + body.length + 2 ∨ a = n + 1 ∨
        (Op.jmpZ a ∈ body ∨ Op.jmpNz a ∈ body) ∨
        (Op.jmpZ a ∈ rest ∨ Op.jmpNz a ∈ rest) := by
      rcases ha with ha | ha
      · rcases List.mem_cons.mp ha with h | h
        · injection h with h
          exact Or.inl h
        · rcases List.mem_append.mp h with h | h
          · exact Or.inr (Or.inr (Or.inl (Or.inl h)))
          · rcases List.mem_cons.mp h with h | h
            · cases h
            · exact Or.inr (Or.inr (Or.inr (Or.inl h)))
      · rcases List.mem_cons.mp ha with h | h
        · cases h
        · rcases List.mem_append.mp h with h | h
          · exact Or.inr (Or.inr (Or.inl (Or.inr h)))
          · rcases List.mem_cons.mp h with h | h
            · injection h with h
              exact Or.inr (Or.inl h)
            · exact Or.inr (Or.inr (Or.inr (Or.inr h)))
    rcases key with hk | hk | hk | hk
    · omega
    · omega
    · have := ihb a hk
      omega
    · have := ihr a hk
      omega

theorem balAt_pairZ {n : Nat} {ops : List Op} (h : BalAt n ops) :
    ∀ i a, ops[i]? = some (Op.jmpZ a) →
      ops[a - 1 - n]? = some (Op.jmpNz (n + i + 1)) := by
  induction h with
  | nil n =>
    intro i a hi
    simp at hi
  | move n d rest hrest ih =>
    intro i a hi
    cases i with
    | zero => simp at hi
    | succ j =>
      rw [List.getElem?_cons_succ] at hi
      have h2 := ih j a hi
      have hr := balAt_target_range hrest a (Or.inl (List.getElem?_mem hi))
      have e1 : a - 1 - n = (a - 1 - (n + 1)) + 1 := by omega
      rw [e1, List.getElem?_cons_succ]
      have e2 : n + 1 + j + 1 = n + (j + 1) + 1 := by omega
      rw [← e2]
      exact h2
  | add n d rest hrest ih =>
    intro i a hi
    cases i with
    | zero => simp at hi
    | succ j =>
      rw [List.getElem?_cons_succ] at hi
      have h2 := ih j a hi
      have hr := balAt_target_range hrest a (Or.inl (List.getElem?_mem hi))
      have e1 : a - 1 - n = (a - 1 - (n + 1)) + 1 := by omega
      rw [e1, List.getElem?_cons_succ]
      have e2 : n + 1 + j + 1 = n + (j + 1) + 1 := by omega
      rw [← e2]
      exact h2
  | out n rest hrest ih =>
    intro i a hi
    cases i with
    | zero => simp at hi
    | succ j =>
      rw [List.getElem?_cons_succ] at hi
      have h2 := ih j a hi
      have hr := balAt_target_range hrest a (Or.inl (List.getElem?_mem hi))
      have e1 : a - 1 - n = (a - 1 - (n + 1)) + 1 := by omega
      rw [e1, List.getElem?_cons_succ]
      have e2 : n + 1 + j + 1 = n + (j + 1) + 1 := by omega
      rw [← e2]
      exact h2
  | inp n rest hrest ih =>
    intro i a hi
    cases i with
    | zero => simp at hi
    | succ j =>
      rw [List.getElem?_cons_succ] at hi
      have h2 := ih j a hi
      have hr := balAt_target_range hrest a (Or.inl (List.getElem?_mem hi))
      have e1 : a - 1 - n = (a - 1 - (n + 1)) + 1 := by omega
      rw [e1, List.getElem?_cons_succ]
      have e2 : n + 1 + j + 1 = n + (j + 1) + 1 := by omega
      rw [← e2]
      exact h2
  | loop n body rest hbody hrest ihb ihr =>
    intro i a hi
    simp only [List.cons_append] at hi ⊢
    cases i with
    | zero =>
      rw [List.getElem?_cons_zero] at hi
      injection hi with hi
      injection hi with hi
      subst hi
      have e1 : n + body.length + 2 - 1 - n = body.length + 1 := by omega
      rw [e1, List.getElem?_cons_succ, List.getElem?_append_right (Nat.le_refl _)]
      simp
    | succ j =>
      rw [List.getElem?_cons_succ, List.getElem?_append] at hi
      by_cases hj : j < body.length
      · rw [if_pos hj] at hi
        have h2 := ihb j a hi
        have hr := balAt_target_range hbody a (Or.inl (List.getElem?_mem hi))
        have e1 : a - 1 - n = (a - 1 - (n + 1)) + 1 := by omega
        rw [e1, List.getElem?_cons_succ, List.getElem?_append]
        have hlt : a - 1 - (n + 1) < body.length := by omega
        rw [if_pos hlt]
        have e2 : n + 1 + j + 1 = n + (j + 1) + 1 := by omega
        rw [← e2]
        exact h2
      · rw [if_neg hj] at hi
        by_cases hj2 : j - body.length = 0
        · rw [hj2, List.getElem?_cons_zero] at hi
          simp at hi
        · have e0 : j - body.length = (j - body.length - 1) + 1 := by omega
          rw [e0, List.getElem?_cons_succ] at hi
          have h2 := ihr (j - body.length - 1) a hi
          have hr := balAt_target_range hrest a (Or.inl (List.getElem?_mem hi))
          have e1 : a - 1 - n = ((a - 1 - (n + body.length + 2)) + body.length + 1) + 1 := by
            omega
          rw [e1, List.getElem?_cons_succ, List.getElem?_append]
          have hge : ¬ ((a - 1 - (n + body.length + 2)) + body.length + 1 < body.length) := by
            omega
          rw [if_neg hge]
          have e3 : (a - 1 - (n + body.length + 2)) + body.length + 1 - body.length =
              (a - 1 - (n + body.length + 2)) + 1 := by
            omega
          rw [e3, List.getElem?_cons_succ]
          have e4 : n + body.length + 2 + (j - body.length - 1) + 1 = n + (j + 1) + 1 := by
            omega
          rw [← e4]
          exact h2

theorem balAt_pairNz {n : Nat} {ops : List Op} (h : BalAt n ops) :
    ∀ i b, ops[i]? = some (Op.jmpNz b) →
      ops[b - 1 - n]? = some (Op.jmpZ (n + i + 1)) := by
  induction h with
  | nil n =>
    intro i b hi
    simp at hi
  | move n d rest hrest ih =>
    intro i b hi
    cases i with
    | zero => simp at hi
    | succ j =>
      rw [List.getElem?_cons_succ] at hi
      have h2 := ih j b hi
      have hr := balAt_target_range hrest b (Or.inr (List.getElem?_mem hi))
      have e1 : b - 1 - n = (b - 1 - (n + 1)) + 1 := by omega
      rw [e1, List.getElem?_cons_succ]
      have e2 : n + 1 + j + 1 = n + (j + 1) + 1 := by omega
      rw [← e2]
      exact h2
  | add n d rest hrest ih =>
    intro i b hi
    cases i with
    | zero => simp at hi
    | succ j =>
      rw [List.getElem?_cons_succ] at hi
      have h2 := ih j b hi
      have hr := balAt_target_range hrest b (Or.inr (List.getElem?_mem hi))
      have e1 : b - 1 - n = (b - 1 - (n + 1)) + 1 := by omega
      rw [e1, List.getElem?_cons_succ]
      have e2 : n + 1 + j + 1 = n + (j + 1) + 1 := by omega
      rw [← e2]
      exact h2
  | out n rest hrest ih =>
    intro i b hi
    cases i with
    | zero => simp at hi
    | succ j =>
      rw [List.getElem?_cons_succ] at hi
      have h2 := ih j b hi
      have hr := balAt_target_range hrest b (Or.inr (List.getElem?_mem hi))
      have e1 : b - 1 - n = (b - 1 - (n + 1)) + 1 := by omega
      rw [e1, List.getElem?_cons_succ]
      have e2 : n + 1 + j + 1 = n + (j + 1) + 1 := by omega
      rw [← e2]
      exact h2
  | inp n rest hrest ih =>
    intro i b hi
    cases i with
    | zero => simp at hi
    | succ j =>
      rw [List.getElem?_cons_succ] at hi
      have h2 := ih j b hi
      have hr := balAt_target_range hrest b (Or.inr (List.getElem?_mem hi))
      have e1 : b - 1 - n = (b - 1 - (n + 1)) + 1 := by omega
      rw [e1, List.getElem?_cons_succ]
      have e2 : n + 1 + j + 1 = n + (j + 1) + 1 := by omega
      rw [← e2]
      exact h2
  | loop n body rest hbody hrest ihb ihr =>
    intro i b hi
    simp only [List.cons_append] at hi ⊢
    cases i with
    | zero => simp at hi
    | succ j =>
      rw [List.getElem?_cons_succ, List.getElem?_append] at hi
      by_cases hj : j < body.length
      · rw [if_pos hj] at hi
        have h2 := ihb j b hi
        have hr := balAt_target_range hbody b (Or.inr (List.getElem?_mem hi))
        have e1 : b - 1 - n = (b - 1 - (n + 1)) + 1 := by omega
        rw [e1, List.getElem?_cons_succ, List.getElem?_append]
        have hlt : b - 1 - (n + 1) < body.length := by omega
        rw [if_pos hlt]
        have e2 : n + 1 + j + 1 = n + (j + 1) + 1 := by omega
        rw [← e2]
        exact h2
      · rw [if_neg hj] at hi
        by_cases hj2 : j - body.length = 0
        · rw [hj2, List.getElem?_cons_zero] at hi
          injection hi with hi
          injection hi with hi
          subst hi
          have e1 : n + 1 - 1 - n = 0 := by omega
          rw [e1, List.getElem?_cons_zero]
          have e2 : n + body.length + 2 = n + (j + 1) + 1 := by omega
          rw [e2]
        · have e0 : j - body.length = (j - body.length - 1) + 1 := by omega
          rw [e0, List.getElem?_cons_succ] at hi
          have h2 := ihr (j - body.length - 1) b hi
          have hr := balAt_target_range hrest b (Or.inr (List.getElem?_mem hi))
          have e1 : b - 1 - n = ((b - 1 - (n + body.length + 2)) + body.length + 1) + 1 := by
            omega
          rw [e1, List.getElem?_cons_succ, List.getElem?_append]
          have hge : ¬ ((b - 1 - (n + body.length + 2)) + body.length + 1 < body.length) := by
            omega
          rw [if_neg hge]
          have e3 : (b - 1 - (n + body.length + 2)) + body.length + 1 - body.length =
              (b - 1 - (n + body.length + 2)) + 1 := by
            omega
          rw [e3, List.getElem?_cons_succ]
          have e4 : n + body.length + 2 + (j - body.length - 1) + 1 = n + (j + 1) + 1 := by
            omega
          rw [← e4]
          exact h2

/-- C5: every successful `build` yields a balanced instruction sequence
(`BalAt 0`): each `jmpZ` opens a loop with a balanced body, its matching
`jmpNz` sits immediately after the body, the `jmpZ`'s target is the address
immediately after that `jmpNz`, and the `jmpNz`'s target the address
immediately after the `jmpZ`.  Consequently the `jmpNz` matching the `jmpZ`
at address `i` with target `a` sits at address `a - 1` and points back to
`i + 1`, and symmetrically. -/
theorem build_loop_invariant (code : List Nat) (ops : List Op)
    (h : build code = .ok ops) :
    BalAt 0 ops ∧
    (∀ i a, ops[i]? = some (Op.jmpZ a) → ops[a - 1]? = some (Op.jmpNz (i + 1))) ∧
    (∀ i b, ops[i]? = some (Op.jmpNz b) → ops[b - 1]? = some (Op.jmpZ (i + 1))) := by
  have hb : BalAt 0 ops :=
    buildGo_balanced code 1 1 [] [] (SInv.nil [] (BalAt.nil 0)) ops h
  refine ⟨hb, fun i a hi => ?_, fun i b hi => ?_⟩
  · have h2 := balAt_pairZ hb i a hi
    simpa using h2
  · have h2 := balAt_pairNz hb i b hi
    simpa using h2

/-- Witness for `build_loop_invariant`: `"[]"` compiles to
`[jmpZ 2, jmpNz 1]`, which is balanced, and the `jmpZ` at address 0 with
target 2 is matched by the `jmpNz` at address 1 targetting 1. -/
theorem build_loop_invariant_witness :
    build [91, 93] = .ok [Op.jmpZ 2, Op.jmpNz 1] ∧
    BalAt 0 [Op.jmpZ 2, Op.jmpNz 1] ∧
    ([Op.jmpZ 2, Op.jmpNz 1] : List Op)[2 - 1]? = some (Op.jmpNz (0 + 1)) := by
  have hbuild : build [91, 93] = .ok [Op.jmpZ 2, Op.jmpNz 1] := by
    simp [build, buildGo, isMv, isAd]
  have h2 := build_loop_invariant [91, 93] [Op.jmpZ 2, Op.jmpNz 1] hbuild
  exact ⟨hbuild, h2.1, h2.2.1 0 2 rfl⟩

/-- C10: in every instruction sequence produced by a successful `build`,
every `jmpZ`/`jmpNz` target address lies in `[1, length]`; hence the
executor's `target - 1` never underflows (`a - 1 + 1 = a`) and a taken jump
sets the cursor to an address that is a valid instruction address or
exactly one past the end. -/
theorem build_jump_targets (code : List Nat) (ops : List Op)
    (h : build code = .ok ops) :
    ∀ (i a : Nat), (ops[i]? = some (Op.jmpZ a) ∨ ops[i]? = some (Op.jmpNz a)) →
      (1 ≤ a ∧ a ≤ ops.length) ∧ a - 1 + 1 = a := by
  have hb : BalAt 0 ops :=
    buildGo_balanced code 1 1 [] [] (SInv.nil [] (BalAt.nil 0)) ops h
  intro i a hi
  have hm : Op.jmpZ a ∈ ops ∨ Op.jmpNz a ∈ ops := by
    rcases hi with hi | hi
    · exact Or.inl (List.getElem?_mem hi)
    · exact Or.inr (List.getElem?_mem hi)
  have hr := balAt_target_range hb a hm
  omega

/-- Witness for `build_jump_targets`: in the program compiled from `"[]"`
both targets are within `[1, 2]` and `target - 1 + 1 = target`. -/
theorem build_jump_targets_witness :
    (1 ≤ 2 ∧ 2 ≤ ([Op.jmpZ 2, Op.jmpNz 1] : List Op).length) ∧ 2 - 1 + 1 = 2 := by
  have hbuild : build [91, 93] = .ok [Op.jmpZ 2, Op.jmpNz 1] := by
    simp [build, buildGo, isMv, isAd]
  exact build_jump_targets [91, 93] [Op.jmpZ 2, Op.jmpNz 1] hbuild 0 2 (Or.inl rfl)

/-- Abstract syntax of a bracket-balanced program: raw runs of `<`/`>`
deltas (`mv`), raw runs of `+`/`-` deltas (`ad`), I/O commands, and loops. -/
inductive Node where
  | mv (run : List Int)
  | ad (run : List Int)
  | out
  | inp
  | loop (body : List Node)

mutual

/-- Unfolded flattening of one node at absolute address `n`: every run entry
becomes its own unit instruction. -/
def flatU1 : Nat → Node → List Op
  | _, .mv run => run.map Op.move
  | _, .ad run => run.map Op.add
  | _, .out => [Op.out]
  | _, .inp => [Op.inp]
  | n, .loop body =>
    Op.jmpZ (n + (flatU (n + 1) body).length + 2) ::
      flatU (n + 1) body ++ Op.jmpNz (n + 1) :: []

/-- Unfolded flattening of a node list starting at absolute address `n`. -/
def flatU : Nat → List Node → List Op
  | _, [] => []
  | n, x :: xs => flatU1 n x ++ flatU (n + (flatU1 n x).length) xs

end

/-- Folding at the level of the AST: each raw run collapses to a single
net-delta run (dropped entirely when the net delta is zero). -/
def foldAst : List Node → List Node
  | [] => []
  | .mv run :: xs =>
    (if run.sum ≠ 0 then [Node.mv [run.sum]] else []) ++ foldAst xs
  | .ad run :: xs =>
    (if run.sum ≠ 0 then [Node.ad [run.sum]] else []) ++ foldAst xs
  | .out :: xs => Node.out :: foldAst xs
  | .inp :: xs => Node.inp :: foldAst xs
  | .loop body :: xs => Node.loop (foldAst body) :: foldAst xs

/-- Well-formed nodes: every run is nonempty (as produced by the parser,
where a run comes from at least one source byte). -/
inductive WFN : Node → Prop
  | mv (run : List Int) : run ≠ [] → WFN (.mv run)
  | ad (run : List Int) : run ≠ [] → WFN (.ad run)
  | out : WFN .out
  | inp : WFN .inp
  | loop (body : List Node) : (∀ x ∈ body, WFN x) → WFN (.loop body)

/-- Bracket-structure parser at the granularity of `buildGo`: consumes a
whole `<`/`>` (or `+`/`-`) run per iteration, pushes the accumulated prefix
on `[`, wraps the loop body on `]`, and fails on an unmatched `]` or
unmatched `[`s at end of input. -/
def parseGo : List Nat → List Node → List (List Node) → Option (List Node)
  | [], acc, [] => some acc
  | [], _, _ :: _ => none
  | c :: rest, acc, stk =>
    if isMv c then
      parseGo (rest.dropWhile isMv) (acc ++ [Node.mv (mvD c :: (rest.takeWhile isMv).map mvD)]) stk
    else if isAd c then
      parseGo (rest.dropWhile isAd) (acc ++ [Node.ad (adD c :: (rest.takeWhile isAd).map adD)]) stk
    else if c == 46 then
      parseGo rest (acc ++ [Node.out]) stk
    else if c == 44 then
      parseGo rest (acc ++ [Node.inp]) stk
    else if c == 91 then
      parseGo rest [] (acc :: stk)
    else if c == 93 then
      match stk with
      | [] => none
      | outer :: stk' => parseGo rest (outer ++ [Node.loop acc]) stk'
    else if c == 10 then
      parseGo rest acc stk
    else
      parseGo rest acc stk
  termination_by bytes => bytes.length
  decreasing_by
    all_goals simp only [List.length_cons]
    · exact Nat.lt_succ_of_le (dropWhile_length_le _ _)
    · exact Nat.lt_succ_of_le (dropWhile_length_le _ _)
    all_goals exact Nat.lt_succ_self _

theorem flatU_nil (n : Nat) : flatU n [] = [] := by
  rw [flatU]

theorem flatU_cons (n : Nat) (x : Node) (xs : List Node) :
    flatU n (x :: xs) = flatU1 n x ++ flatU (n + (flatU1 n x).length) xs := by
  rw [flatU]

theorem flatU_append (n : Nat) (xs ys : List Node) :
    flatU n (xs ++ ys) = flatU n xs ++ flatU (n + (flatU n xs).length) ys := by
  induction xs generalizing n with
  | nil =>
    rw [flatU_nil]
    simp
  | cons x xs ih =>
    rw [List.cons_append, flatU_cons, ih, flatU_cons, List.append_assoc]
    have he : n + (flatU1 n x).length + (flatU (n + (flatU1 n x).length) xs).length =
        n + (flatU1 n x ++ flatU (n + (flatU1 n x).length) xs).length := by
      simp only [List.length_append]
      omega
    rw [he]

theorem foldAst_append (xs ys : List Node) :
    foldAst (xs ++ ys) = foldAst xs ++ foldAst ys := by
  induction xs with
  | nil => rw [foldAst]; rfl
  | cons x xs ih =>
    cases x with
    | mv run =>
      rw [List.cons_append, foldAst, foldAst, ih, List.append_assoc]
    | ad run =>
      rw [List.cons_append, foldAst, foldAst, ih, List.append_assoc]
    | out =>
      rw [List.cons_append, foldAst, foldAst, ih]
      rfl
    | inp =>
      rw [List.cons_append, foldAst, foldAst, ih]
      rfl
    | loop body =>
      rw [List.cons_append, foldAst, foldAst, ih]
      rfl

/-- Invariant tying a translator accumulator to the parser state: the
emitted code is the flattening (through the AST post-processing `g`, which
is `foldAst` for the folded translator and `id` for the unfolded one) of
the already-parsed context, with a `jmpZ 0` placeholder at each pending
`[`. -/
inductive GInv (g : List Node → List Node) :
    List Op → List BInfo → List Node → List (List Node) → Prop
  | nil (acc : List Node) : GInv g (flatU 0 (g acc)) [] acc []
  | cons (r : List Op) (stack : List BInfo) (acc0 : List Node)
      (stk : List (List Node)) (info : BInfo) (acc : List Node) :
      GInv g r stack acc0 stk → info.addr = r.length + 1 →
      GInv g (r ++ Op.jmpZ 0 :: flatU (r.length + 1) (g acc)) (info :: stack)
        acc (acc0 :: stk)

theorem ginv_snoc {g : List Node → List Node} {r : List Op}
    {stack : List BInfo} {acc : List Node} {stk : List (List Node)}
    (x : Node) (gx : List Node)
    (hg : ∀ as, g (as ++ [x]) = g as ++ gx)
    (h : GInv g r stack acc stk) :
    GInv g (r ++ flatU r.length gx) stack (acc ++ [x]) stk := by
  cases h with
  | nil acc =>
    have he : flatU 0 (g (acc ++ [x])) =
        flatU 0 (g acc) ++ flatU (flatU 0 (g acc)).length gx := by
      rw [hg, flatU_append, Nat.zero_add]
    have := GInv.nil (g := g) (acc ++ [x])
    rw [he] at this
    exact this
  | cons r' stack acc0 stk info acc hinv haddr =>
    have hlen : (r' ++ Op.jmpZ 0 :: flatU (r'.length + 1) (g acc)).length =
        r'.length + 1 + (flatU (r'.length + 1) (g acc)).length := by
      simp only [List.length_append, List.length_cons]
      omega
    have he : flatU (r'.length + 1) (g (acc ++ [x])) =
        flatU (r'.length + 1) (g acc) ++
          flatU ((r' ++ Op.jmpZ 0 :: flatU (r'.length + 1) (g acc)).length) gx := by
      rw [hg, flatU_append, hlen]
    have h2 := GInv.cons (g := g) r' stack acc0 stk info (acc ++ [x]) hinv haddr
    rw [he] at h2
    have hassoc : r' ++ Op.jmpZ 0 ::
        (flatU (r'.length + 1) (g acc) ++
          flatU ((r' ++ Op.jmpZ 0 :: flatU (r'.length + 1) (g acc)).length) gx) =
        (r' ++ Op.jmpZ 0 :: flatU (r'.length + 1) (g acc)) ++
          flatU ((r' ++ Op.jmpZ 0 :: flatU (r'.length + 1) (g acc)).length) gx := by
      simp
    rw [hassoc] at h2
    exact h2

theorem ginv_pop {g : List Node → List Node} {r : List Op} {info : BInfo}
    {stack' : List BInfo} {acc acc0 : List Node} {stk' : List (List Node)}
    (hgapp : ∀ as, g (as ++ [Node.loop acc]) = g as ++ [Node.loop (g acc)])
    (h : GInv g r (info :: stack') acc (acc0 :: stk')) :
    GInv g ((r ++ [Op.jmpNz info.addr]).set (info.addr - 1) (Op.jmpZ (r.length + 1)))
      stack' (acc0 ++ [Node.loop acc]) stk' := by
  cases h with
  | cons r' stack acc0' stk info' acc' hinv haddr =>
    have hidx : info.addr - 1 = r'.length := by
      rw [haddr]
      omega
    have hassoc : (r' ++ Op.jmpZ 0 :: flatU (r'.length + 1) (g acc)) ++ [Op.jmpNz info.addr] =
        r' ++ Op.jmpZ 0 :: (flatU (r'.length + 1) (g acc) ++ [Op.jmpNz info.addr]) := by
      simp
    have hlen : (r' ++ Op.jmpZ 0 :: flatU (r'.length + 1) (g acc)).length + 1 =
        r'.length + (flatU (r'.length + 1) (g acc)).length + 2 := by
      simp only [List.length_append, List.length_cons]
      omega
    have hflat : flatU r'.length [Node.loop (g acc)] =
        Op.jmpZ (r'.length + (flatU (r'.length + 1) (g acc)).length + 2) ::
          (flatU (r'.length + 1) (g acc) ++ [Op.jmpNz (r'.length + 1)]) := by
      rw [flatU_cons, flatU_nil, List.append_nil, flatU1]
      simp
    have hshape : ((r' ++ Op.jmpZ 0 :: flatU (r'.length + 1) (g acc)) ++
          [Op.jmpNz info.addr]).set (info.addr - 1)
          (Op.jmpZ ((r' ++ Op.jmpZ 0 :: flatU (r'.length + 1) (g acc)).length + 1)) =
        r' ++ flatU r'.length [Node.loop (g acc)] := by
      rw [hassoc, hidx, set_append_len, hlen, haddr, hflat]
    rw [hshape]
    have h2 := ginv_snoc (Node.loop acc) [Node.loop (g acc)] hgapp hinv
    exact h2

theorem foldAst_snoc_mv (as : List Node) (run : List Int) :
    foldAst (as ++ [Node.mv run]) =
      foldAst as ++ (if run.sum ≠ 0 then [Node.mv [run.sum]] else []) := by
  rw [foldAst_append, foldAst, foldAst]
  simp

theorem foldAst_snoc_ad (as : List Node) (run : List Int) :
    foldAst (as ++ [Node.ad run]) =
      foldAst as ++ (if run.sum ≠ 0 then [Node.ad [run.sum]] else []) := by
  rw [foldAst_append, foldAst, foldAst]
  simp

theorem foldAst_snoc_out (as : List Node) :
    foldAst (as ++ [Node.out]) = foldAst as ++ [Node.out] := by
  rw [foldAst_append, foldAst, foldAst]

theorem foldAst_snoc_inp (as : List Node) :
    foldAst (as ++ [Node.inp]) = foldAst as ++ [Node.inp] := by
  rw [foldAst_append, foldAst, foldAst]

theorem foldAst_snoc_loop (as : List Node) (body : List Node) :
    foldAst (as ++ [Node.loop body]) = foldAst as ++ [Node.loop (foldAst body)] := by
  rw [foldAst_append, foldAst, foldAst]

theorem flatU_single_mv (n : Nat) (d : Int) : flatU n [Node.mv [d]] = [Op.move d] := by
  rw [flatU_cons, flatU_nil, List.append_nil, flatU1]
  rfl

theorem flatU_single_ad (n : Nat) (d : Int) : flatU n [Node.ad [d]] = [Op.add d] := by
  rw [flatU_cons, flatU_nil, List.append_nil, flatU1]
  rfl

theorem flatU_single_out (n : Nat) : flatU n [Node.out] = [Op.out] := by
  rw [flatU_cons, flatU_nil, List.append_nil, flatU1]

theorem flatU_single_inp (n : Nat) : flatU n [Node.inp] = [Op.inp] := by
  rw [flatU_cons, flatU_nil, List.append_nil, flatU1]

theorem ginv_cons_inv {g : List Node → List Node} {r : List Op} {info : BInfo}
    {stack' : List BInfo} {acc : List Node} {stk : List (List Node)}
    (h : GInv g r (info :: stack') acc stk) :
    ∃ r0 acc0 stk0, stk = acc0 :: stk0 ∧
      r = r0 ++ Op.jmpZ 0 :: flatU (r0.length + 1) (g acc) ∧
      info.addr = r0.length + 1 ∧ GInv g r0 stack' acc0 stk0 := by
  cases h with
  | cons r stack acc0 stk info acc hinv haddr =>
    exact ⟨r, acc0, stk, rfl, rfl, haddr, hinv⟩

theorem foldAst_nil : foldAst [] = [] := by
  rw [foldAst]

/-- The folded translator's successful output is the flattening of the
folded AST of the parse of the source. -/
theorem buildGo_flat (bytes : List Nat) (line col : Nat) (result : List Op)
    (stack : List BInfo) :
    ∀ acc stk, GInv foldAst result stack acc stk →
      ∀ F, buildGo bytes line col result stack = .ok F →
        ∃ A, parseGo bytes acc stk = some A ∧ F = flatU 0 (foldAst A) := by
  induction bytes, line, col, result, stack using buildGo.induct with
  | case1 line col result =>
    intro acc stk hinv F h
    rw [buildGo.eq_def] at h
    simp only [Except.ok.injEq] at h
    cases hinv with
    | nil acc =>
      refine ⟨acc, ?_, ?_⟩
      · rw [parseGo.eq_def]
      · rw [← h]
  | case2 line col result info tail =>
    intro acc stk hinv F h
    rw [buildGo.eq_def] at h
    simp at h
  | case3 c rest line col result stack hmv d ih =>
    intro acc stk hinv F h
    rw [buildGo.eq_def] at h
    simp only [hmv, if_true] at h
    have hsnoc := ginv_snoc (Node.mv (mvD c :: (rest.takeWhile isMv).map mvD)) _
      (fun as => foldAst_snoc_mv as (mvD c :: (rest.takeWhile isMv).map mvD)) hinv
    have heq : result ++ flatU result.length
        (if (mvD c :: (rest.takeWhile isMv).map mvD).sum ≠ 0 then
          [Node.mv [(mvD c :: (rest.takeWhile isMv).map mvD).sum]] else []) =
        (if mvD c + ((rest.takeWhile isMv).map mvD).sum ≠ 0 then
          result ++ [Op.move (mvD c + ((rest.takeWhile isMv).map mvD).sum)]
        else result) := by
      rw [List.sum_cons]
      by_cases hd : mvD c + ((rest.takeWhile isMv).map mvD).sum ≠ 0
      · rw [if_pos hd, if_pos hd, flatU_single_mv]
      · rw [if_neg hd, if_neg hd, flatU_nil, List.append_nil]
    rw [heq] at hsnoc
    obtain ⟨A, hA, hF⟩ := ih _ _ hsnoc F h
    refine ⟨A, ?_, hF⟩
    rw [parseGo.eq_def]
    simp only [hmv, if_true]
    exact hA
  | case4 c rest line col result stack hmv had d ih =>
    intro acc stk hinv F h
    rw [buildGo.eq_def] at h
    simp only [hmv, had, if_true, if_false, Bool.false_eq_true] at h
    have hsnoc := ginv_snoc (Node.ad (adD c :: (rest.takeWhile isAd).map adD)) _
      (fun as => foldAst_snoc_ad as (adD c :: (rest.takeWhile isAd).map adD)) hinv
    have heq : result ++ flatU result.length
        (if (adD c :: (rest.takeWhile isAd).map adD).sum ≠ 0 then
          [Node.ad [(adD c :: (rest.takeWhile isAd).map adD).sum]] else []) =
        (if adD c + ((rest.takeWhile isAd).map adD).sum ≠ 0 then
          result ++ [Op.add (adD c + ((rest.takeWhile isAd).map adD).sum)]
        else result) := by
      rw [List.sum_cons]
      by_cases hd : adD c + ((rest.takeWhile isAd).map adD).sum ≠ 0
      · rw [if_pos hd, if_pos hd, flatU_single_ad]
      · rw [if_neg hd, if_neg hd, flatU_nil, List.append_nil]
    rw [heq] at hsnoc
    obtain ⟨A, hA, hF⟩ := ih _ _ hsnoc F h
    refine ⟨A, ?_, hF⟩
    rw [parseGo.eq_def]
    simp only [hmv, had, if_true, if_false, Bool.false_eq_true]
    exact hA
  | case5 c rest line col result stack hmv had hdot ih =>
    intro acc stk hinv F h
    rw [buildGo.eq_def] at h
    simp only [hmv, had, hdot, if_true, if_false, Bool.false_eq_true] at h
    have hsnoc := ginv_snoc Node.out [Node.out] foldAst_snoc_out hinv
    rw [flatU_single_out] at hsnoc
    obtain ⟨A, hA, hF⟩ := ih _ _ hsnoc F h
    refine ⟨A, ?_, hF⟩
    rw [parseGo.eq_def]
    simp only [hmv, had, hdot, if_true, if_false, Bool.false_eq_true]
    exact hA
  | case6 c rest line col result stack hmv had hdot hcom ih =>
    intro acc stk hinv F h
    rw [buildGo.eq_def] at h
    simp only [hmv, had, hdot, hcom, if_true, if_false, Bool.false_eq_true] at h
    have hsnoc := ginv_snoc Node.inp [Node.inp] foldAst_snoc_inp hinv
    rw [flatU_single_inp] at hsnoc
    obtain ⟨A, hA, hF⟩ := ih _ _ hsnoc F h
    refine ⟨A, ?_, hF⟩
    rw [parseGo.eq_def]
    simp only [hmv, had, hdot, hcom, if_true, if_false, Bool.false_eq_true]
    exact hA
  | case7 c rest line col result stack hmv had hdot hcom hlb ih =>
    intro acc stk hinv F h
    rw [buildGo.eq_def] at h
    simp only [hmv, had, hdot, hcom, hlb, if_true, if_false, Bool.false_eq_true] at h
    have hpush := GInv.cons (g := foldAst) result stack acc stk
      ⟨line, col, result.length + 1⟩ [] hinv rfl
    rw [foldAst_nil, flatU_nil] at hpush
    obtain ⟨A, hA, hF⟩ := ih _ _ hpush F h
    refine ⟨A, ?_, hF⟩
    rw [parseGo.eq_def]
    simp only [hmv, had, hdot, hcom, hlb, if_true, if_false, Bool.false_eq_true]
    exact hA
  | case8 c rest line col result hmv had hdot hcom hlb hrb =>
    intro acc stk hinv F h
    rw [buildGo.eq_def] at h
    simp [hmv, had, hdot, hcom, hlb, hrb] at h
  | case9 c rest line col result hmv had hdot hcom hlb hrb info tail ih =>
    intro acc stk hinv F h
    rw [buildGo.eq_def] at h
    simp only [hmv, had, hdot, hcom, hlb, hrb, if_true, if_false, Bool.false_eq_true] at h
    obtain ⟨r0, acc0, stk0, rfl, hr, haddr0, hinv0⟩ := ginv_cons_inv hinv
    subst hr
    have hpop := ginv_pop (g := foldAst) (fun as => foldAst_snoc_loop as acc)
      (GInv.cons r0 tail acc0 stk0 info acc hinv0 haddr0)
    obtain ⟨A, hA, hF⟩ := ih _ _ hpop F h
    refine ⟨A, ?_, hF⟩
    rw [parseGo.eq_def]
    simp only [hmv, had, hdot, hcom, hlb, hrb, if_true, if_false, Bool.false_eq_true]
    exact hA
  | case10 c rest line col result stack hmv had hdot hcom hlb hrb hnl ih =>
    intro acc stk hinv F h
    rw [buildGo.eq_def] at h
    simp only [hmv, had, hdot, hcom, hlb, hrb, hnl, if_true, if_false,
      Bool.false_eq_true] at h
    obtain ⟨A, hA, hF⟩ := ih _ _ hinv F h
    refine ⟨A, ?_, hF⟩
    rw [parseGo.eq_def]
    simp only [hmv, had, hdot, hcom, hlb, hrb, hnl, if_true, if_false,
      Bool.false_eq_true]
    exact hA
  | case11 c rest line col result stack hmv had hdot hcom hlb hrb hnl ih =>
    intro acc stk hinv F h
    rw [buildGo.eq_def] at h
    simp only [hmv, had, hdot, hcom, hlb, hrb, hnl, if_true, if_false,
      Bool.false_eq_true] at h
    obtain ⟨A, hA, hF⟩ := ih _ _ hinv F h
    refine ⟨A, ?_, hF⟩
    rw [parseGo.eq_def]
    simp only [hmv, had, hdot, hcom, hlb, hrb, hnl, if_true, if_false,
      Bool.false_eq_true]
    exact hA

theorem flatU_single_mv_run (n : Nat) (run : List Int) :
    flatU n [Node.mv run] = run.map Op.move := by
  rw [flatU_cons, flatU_nil, List.append_nil, flatU1]

theorem flatU_single_ad_run (n : Nat) (run : List Int) :
    flatU n [Node.ad run] = run.map Op.add := by
  rw [flatU_cons, flatU_nil, List.append_nil, flatU1]

theorem buildUGo_mv_run (ts : List Nat) (hts : ∀ b ∈ ts, isMv b = true) :
    ∀ zs line col result stack,
      buildUGo (ts ++ zs) line col result stack =
        buildUGo zs line (col + ts.length)
          (result ++ ts.map (fun b => Op.move (mvD b))) stack := by
  induction ts with
  | nil =>
    intro zs line col result stack
    simp
  | cons t ts ih =>
    intro zs line col result stack
    have hmv : isMv t = true := hts t (by simp)
    rw [List.cons_append, buildUGo.eq_def]
    simp only [hmv, if_true]
    rw [ih (fun b hb => hts b (by simp [hb])) zs line (col + 1)]
    have e1 : col + 1 + ts.length = col + (t :: ts).length := by
      simp only [List.length_cons]
      omega
    have e2 : (result ++ [Op.move (mvD t)]) ++ ts.map (fun b => Op.move (mvD b)) =
        result ++ (t :: ts).map (fun b => Op.move (mvD b)) := by
      simp
    rw [e1, e2]

theorem buildUGo_ad_run (ts : List Nat) (hts : ∀ b ∈ ts, isAd b = true) :
    ∀ zs line col result stack,
      buildUGo (ts ++ zs) line col result stack =
        buildUGo zs line (col + ts.length)
          (result ++ ts.map (fun b => Op.add (adD b))) stack := by
  induction ts with
  | nil =>
    intro zs line col result stack
    simp
  | cons t ts ih =>
    intro zs line col result stack
    have had : isAd t = true := hts t (by simp)
    have hmv : isMv t = false := by
      rcases (by simpa [isAd] using had : t = 43 ∨ t = 45) with rfl | rfl <;> rfl
    rw [List.cons_append, buildUGo.eq_def]
    simp only [hmv, had, if_true, if_false, Bool.false_eq_true]
    rw [ih (fun b hb => hts b (by simp [hb])) zs line (col + 1)]
    have e1 : col + 1 + ts.length = col + (t :: ts).length := by
      simp only [List.length_cons]
      omega
    have e2 : (result ++ [Op.add (adD t)]) ++ ts.map (fun b => Op.add (adD b)) =
        result ++ (t :: ts).map (fun b => Op.add (adD b)) := by
      simp
    rw [e1, e2]

theorem ginv_stk_cons_inv {g : List Node → List Node} {r : List Op}
    {stack : List BInfo} {acc outer : List Node} {stk' : List (List Node)}
    (h : GInv g r stack acc (outer :: stk')) :
    ∃ r0 info stack0, stack = info :: stack0 ∧
      r = r0 ++ Op.jmpZ 0 :: flatU (r0.length + 1) (g acc) ∧
      info.addr = r0.length + 1 ∧ GInv g r0 stack0 outer stk' := by
  cases h with
  | cons r stack acc0 stk info acc hinv haddr =>
    exact ⟨r, info, stack, rfl, rfl, haddr, hinv⟩

/-- The unfolded translator's successful output is the flattening of the
parse of the source, with every run compiled to unit instructions. -/
theorem buildUGo_flat (bytes : List Nat) (acc : List Node) (stk : List (List Node)) :
    ∀ line col result stack, GInv id result stack acc stk →
      ∀ U, buildUGo bytes line col result stack = .ok U →
        ∃ A, parseGo bytes acc stk = some A ∧ U = flatU 0 A := by
  induction bytes, acc, stk using parseGo.induct with
  | case1 acc =>
    intro line col result stack hinv U h
    rw [buildUGo.eq_def] at h
    cases hinv with
    | nil acc =>
      simp only [Except.ok.injEq] at h
      refine ⟨acc, ?_, ?_⟩
      · rw [parseGo.eq_def]
      · rw [← h]
        rfl
  | case2 acc head tail =>
    intro line col result stack hinv U h
    cases hinv with
    | cons r stack acc0 stk info acc hinv haddr =>
      rw [buildUGo.eq_def] at h
      simp at h
  | case3 c rest acc stk hmv ih =>
    intro line col result stack hinv U h
    have hsplit : c :: rest = (c :: rest.takeWhile isMv) ++ rest.dropWhile isMv := by
      rw [List.cons_append, List.takeWhile_append_dropWhile]
    rw [hsplit, buildUGo_mv_run (c :: rest.takeWhile isMv)
      (by
        intro b hb
        rcases List.mem_cons.mp hb with rfl | hb
        · exact hmv
        · exact List.mem_takeWhile_imp hb)] at h
    have hflat : flatU result.length [Node.mv (mvD c :: (rest.takeWhile isMv).map mvD)] =
        (c :: rest.takeWhile isMv).map (fun b => Op.move (mvD b)) := by
      rw [flatU_single_mv_run, List.map_cons, List.map_cons, List.map_map]
      rfl
    have hsnoc := ginv_snoc (g := id) (Node.mv (mvD c :: (rest.takeWhile isMv).map mvD))
      [Node.mv (mvD c :: (rest.takeWhile isMv).map mvD)] (fun as => rfl) hinv
    rw [hflat] at hsnoc
    obtain ⟨A, hA, hF⟩ := ih _ _ _ _ hsnoc U h
    refine ⟨A, ?_, hF⟩
    rw [parseGo.eq_def]
    simp only [hmv, if_true]
    exact hA
  | case4 c rest acc stk hmv had ih =>
    intro line col result stack hinv U h
    have hsplit : c :: rest = (c :: rest.takeWhile isAd) ++ rest.dropWhile isAd := by
      rw [List.cons_append, List.takeWhile_append_dropWhile]
    rw [hsplit, buildUGo_ad_run (c :: rest.takeWhile isAd)
      (by
        intro b hb
        rcases List.mem_cons.mp hb with rfl | hb
        · exact had
        · exact List.mem_takeWhile_imp hb)] at h
    have hflat : flatU result.length [Node.ad (adD c :: (rest.takeWhile isAd).map adD)] =
        (c :: rest.takeWhile isAd).map (fun b => Op.add (adD b)) := by
      rw [flatU_single_ad_run, List.map_cons, List.map_cons, List.map_map]
      rfl
    have hsnoc := ginv_snoc (g := id) (Node.ad (adD c :: (rest.takeWhile isAd).map adD))
      [Node.ad (adD c :: (rest.takeWhile isAd).map adD)] (fun as => rfl) hinv
    rw [hflat] at hsnoc
    obtain ⟨A, hA, hF⟩ := ih _ _ _ _ hsnoc U h
    refine ⟨A, ?_, hF⟩
    rw [parseGo.eq_def]
    simp only [hmv, had, if_true, if_false, Bool.false_eq_true]
    exact hA
  | case5 c rest acc stk hmv had hdot ih =>
    intro line col result stack hinv U h
    rw [buildUGo.eq_def] at h
    simp only [hmv, had, hdot, if_true, if_false, Bool.false_eq_true] at h
    have hsnoc := ginv_snoc (g := id) Node.out [Node.out] (fun as => rfl) hinv
    rw [flatU_single_out] at hsnoc
    obtain ⟨A, hA, hF⟩ := ih _ _ _ _ hsnoc U h
    refine ⟨A, ?_, hF⟩
    rw [parseGo.eq_def]
    simp only [hmv, had, hdot, if_true, if_false, Bool.false_eq_true]
    exact hA
  | case6 c rest acc stk hmv had hdot hcom ih =>
    intro line col result stack hinv U h
    rw [buildUGo.eq_def] at h
    simp only [hmv, had, hdot, hcom, if_true, if_false, Bool.false_eq_true] at h
    have hsnoc := ginv_snoc (g := id) Node.inp [Node.inp] (fun as => rfl) hinv
    rw [flatU_single_inp] at hsnoc
    obtain ⟨A, hA, hF⟩ := ih _ _ _ _ hsnoc U h
    refine ⟨A, ?_, hF⟩
    rw [parseGo.eq_def]
    simp only [hmv, had, hdot, hcom, if_true, if_false, Bool.false_eq_true]
    exact hA
  | case7 c rest acc stk hmv had hdot hcom hlb ih =>
    intro line col result stack hinv U h
    rw [buildUGo.eq_def] at h
    simp only [hmv, had, hdot, hcom, hlb, if_true, if_false, Bool.false_eq_true] at h
    have hpush := GInv.cons (g := id) result stack acc stk
      ⟨line, col, result.length + 1⟩ [] hinv rfl
    rw [show (id ([] : List Node)) = [] from rfl, flatU_nil] at hpush
    obtain ⟨A, hA, hF⟩ := ih _ _ _ _ hpush U h
    refine ⟨A, ?_, hF⟩
    rw [parseGo.eq_def]
    simp only [hmv, had, hdot, hcom, hlb, if_true, if_false, Bool.false_eq_true]
    exact hA
  | case8 c rest acc hmv had hdot hcom hlb hrb =>
    intro line col result stack hinv U h
    cases hinv with
    | nil acc =>
      rw [buildUGo.eq_def] at h
      simp [hmv, had, hdot, hcom, hlb, hrb] at h
  | case9 c rest acc hmv had hdot hcom hlb hrb outer stk' ih =>
    intro line col result stack hinv U h
    obtain ⟨r0, info, stack0, rfl, hr, haddr0, hinv0⟩ := ginv_stk_cons_inv hinv
    subst hr
    rw [buildUGo.eq_def] at h
    simp only [hmv, had, hdot, hcom, hlb, hrb, if_true, if_false, Bool.false_eq_true] at h
    have hpop := ginv_pop (g := id) (fun as => rfl)
      (GInv.cons (g := id) r0 stack0 outer stk' info acc hinv0 haddr0)
    obtain ⟨A, hA, hF⟩ := ih _ _ _ _ hpop U h
    refine ⟨A, ?_, hF⟩
    rw [parseGo.eq_def]
    simp only [hmv, had, hdot, hcom, hlb, hrb, if_true, if_false, Bool.false_eq_true]
    exact hA
  | case10 c rest acc stk hmv had hdot hcom hlb hrb hnl ih =>
    intro line col result stack hinv U h
    rw [buildUGo.eq_def] at h
    simp only [hmv, had, hdot, hcom, hlb, hrb, hnl, if_true, if_false,
      Bool.false_eq_true] at h
    obtain ⟨A, hA, hF⟩ := ih _ _ _ _ hinv U h
    refine ⟨A, ?_, hF⟩
    rw [parseGo.eq_def]
    simp only [hmv, had, hdot, hcom, hlb, hrb, hnl, if_true, if_false,
      Bool.false_eq_true]
    exact hA
  | case11 c rest acc stk hmv had hdot hcom hlb hrb hnl ih =>
    intro line col result stack hinv U h
    rw [buildUGo.eq_def] at h
    simp only [hmv, had, hdot, hcom, hlb, hrb, hnl, if_true, if_false,
      Bool.false_eq_true] at h
    obtain ⟨A, hA, hF⟩ := ih _ _ _ _ hinv U h
    refine ⟨A, ?_, hF⟩
    rw [parseGo.eq_def]
    simp only [hmv, had, hdot, hcom, hlb, hrb, hnl, if_true, if_false,
      Bool.false_eq_true]
    exact hA

/-- Structured-machine state: remaining nodes of the current block, a stack
of loop frames (loop body to re-enter, continuation after the loop), and
the same tape/pointer/stream components as the flat executor. -/
structure MState where
  cur : List Node
  fr : List (List Node × List Node)
  tape : Nat → Nat
  ptr : Nat
  rdr : List (Except String Nat)
  wr : List (Option String)
  out : List Nat

inductive MRes where
  | next (m : MState)
  | done (r : Except RuntimeErrorKind Unit) (m : MState)

/-- One step of the structured machine; it consumes one run entry at a time
so that it is in exact lockstep with the unfolded flat program. -/
def mstep (m : MState) : MRes :=
  match m.cur with
  | [] =>
    match m.fr with
    | [] => .done (.ok ()) m
    | (body, rest) :: fr' =>
      if m.tape m.ptr ≠ 0 then .next { m with cur := body }
      else .next { m with
                   cur := rest
                   fr := fr' }
  | .mv [] :: t => .next { m with cur := t }
  | .mv (u :: us) :: t =>
    if (u < 0 ∧ -u > (m.ptr : Int)) ∨ (m.ptr : Int) + u ≥ 30000 then
      .done (.error (.dataOverflow ((m.ptr : Int) + u))) m
    else
      .next { m with
              cur := if us = [] then t else Node.mv us :: t
              ptr := ((m.ptr : Int) + u).toNat }
  | .ad [] :: t => .next { m with cur := t }
  | .ad (u :: us) :: t =>
    .next { m with
            cur := if us = [] then t else Node.ad us :: t
            tape := fun j => if j = m.ptr then wrap8 ((m.tape m.ptr : Int) + u)
                             else m.tape j }
  | .out :: t =>
    match m.wr with
    | some msg :: _ => .done (.error (.ioErr msg)) m
    | none :: wr' =>
      .next { m with
              cur := t
              wr := wr'
              out := m.out ++ [m.tape m.ptr] }
    | [] =>
      .next { m with
              cur := t
              out := m.out ++ [m.tape m.ptr] }
  | .inp :: t =>
    match m.rdr with
    | [] => .done (.error (.ioErr eofMsg)) m
    | .error msg :: _ => .done (.error (.ioErr msg)) m
    | .ok b :: rdr' =>
      .next { m with
              cur := t
              tape := fun j => if j = m.ptr then b % 256 else m.tape j
              rdr := rdr' }
  | .loop body :: t =>
    if m.tape m.ptr = 0 then .next { m with cur := t }
    else .next { m with
                 cur := body
                 fr := (body, t) :: m.fr }

def mrun : Nat → MState → Option (Except RuntimeErrorKind Unit × MState)
  | 0, _ => none
  | fuel + 1, m =>
    match mstep m with
    | .done r m' => some (r, m')
    | .next m' => mrun fuel m'

/-- `B` occurs in `C` starting at position `n`. -/
def SegAt (C : List Op) (n : Nat) (B : List Op) : Prop :=
  ∀ i, i < B.length → C[n + i]? = B[i]?

/-- `B` is exactly the suffix of `C` from position `n`. -/
def EndAt (C : List Op) (n : Nat) (B : List Op) : Prop :=
  ∀ i, C[n + i]? = B[i]?

theorem endAt_segAt {C : List Op} {n : Nat} {B : List Op} (h : EndAt C n B) :
    SegAt C n B :=
  fun i _ => h i

/-- Decompilation relation: the structured configuration `(cur, fr)` sitting
at flat address `n` corresponds to the flat program `C` (which is an
unfolded flattening).  Each frame records the loop body's flat position via
the address `bS` of its `jmpZ`. -/
inductive Conf (C : List Op) : Nat → List Node → List (List Node × List Node) → Prop
  | nil (n : Nat) (cur : List Node) :
      EndAt C n (flatU n cur) → Conf C n cur []
  | cons (n : Nat) (cur body rest : List Node) (bS : Nat)
      (fr : List (List Node × List Node)) :
      SegAt C n (flatU n cur) →
      n + (flatU n cur).length = bS + 1 + (flatU (bS + 1) body).length →
      SegAt C (bS + 1) (flatU (bS + 1) body) →
      C[bS + 1 + (flatU (bS + 1) body).length]? = some (Op.jmpNz (bS + 1)) →
      Conf C (bS + 1 + (flatU (bS + 1) body).length + 1) rest fr →
      Conf C n cur ((body, rest) :: fr)

theorem conf_segAt {C : List Op} {n : Nat} {cur : List Node}
    {fr : List (List Node × List Node)} (h : Conf C n cur fr) :
    SegAt C n (flatU n cur) := by
  cases h with
  | nil n cur hE => exact endAt_segAt hE
  | cons n cur body rest bS fr hseg hend hsegb hnz hrest => exact hseg

theorem conf_shift {C : List Op} {n : Nat} {curA curB : List Node}
    {fr : List (List Node × List Node)} {b : Op}
    (hflat : flatU n curA = b :: flatU (n + 1) curB)
    (h : Conf C n curA fr) : Conf C (n + 1) curB fr := by
  cases h with
  | nil n cur hE =>
    refine Conf.nil (n + 1) curB (fun i => ?_)
    have h2 := hE (1 + i)
    rw [hflat] at h2
    have e1 : n + (1 + i) = (n + 1) + i := by omega
    rw [e1] at h2
    rw [h2]
    have e2 : 1 + i = i + 1 := by omega
    rw [e2, List.getElem?_cons_succ]
  | cons n cur body rest bS fr hseg hend hsegb hnz hrest =>
    rw [hflat] at hseg hend
    refine Conf.cons (n + 1) curB body rest bS fr (fun i hi => ?_) ?_ hsegb hnz hrest
    · have h2 := hseg (1 + i) (by
        simp only [List.length_cons]
        omega)
      have e1 : n + (1 + i) = (n + 1) + i := by omega
      rw [e1] at h2
      rw [h2]
      have e2 : 1 + i = i + 1 := by omega
      rw [e2, List.getElem?_cons_succ]
    · simp only [List.length_cons] at hend
      omega

theorem conf_advance {C : List Op} {n : Nat} {x : Node} {curT : List Node}
    {fr : List (List Node × List Node)} (h : Conf C n (x :: curT) fr) :
    Conf C (n + (flatU1 n x).length) curT fr := by
  cases h with
  | nil n cur hE =>
    refine Conf.nil _ curT (fun i => ?_)
    have h2 := hE ((flatU1 n x).length + i)
    rw [flatU_cons] at h2
    rw [List.getElem?_append_right (by omega)] at h2
    have e1 : n + ((flatU1 n x).length + i) = (n + (flatU1 n x).length) + i := by omega
    have e2 : (flatU1 n x).length + i - (flatU1 n x).length = i := by omega
    rw [e1, e2] at h2
    exact h2
  | cons n cur body rest bS fr hseg hend hsegb hnz hrest =>
    rw [flatU_cons] at hseg hend
    refine Conf.cons _ curT body rest bS fr (fun i hi => ?_) ?_ hsegb hnz hrest
    · have h2 := hseg ((flatU1 n x).length + i) (by
        simp only [List.length_append]
        omega)
      rw [List.getElem?_append_right (by omega)] at h2
      have e1 : n + ((flatU1 n x).length + i) = (n + (flatU1 n x).length) + i := by omega
      have e2 : (flatU1 n x).length + i - (flatU1 n x).length = i := by omega
      rw [e1, e2] at h2
      exact h2
    · simp only [List.length_append] at hend
      omega

theorem conf_halt {C : List Op} {n : Nat} (h : Conf C n [] []) : C[n]? = none := by
  cases h with
  | nil n cur hE =>
    have h2 := hE 0
    rw [flatU_nil] at h2
    simpa using h2

theorem conf_pop {C : List Op} {n : Nat} {body rest : List Node}
    {fr : List (List Node × List Node)} (h : Conf C n [] ((body, rest) :: fr)) :
    ∃ bS, C[n]? = some (Op.jmpNz (bS + 1)) ∧
      Conf C (bS + 1) body ((body, rest) :: fr) ∧
      Conf C (n + 1) rest fr := by
  cases h with
  | cons n cur body rest bS fr hseg hend hsegb hnz hrest =>
    rw [flatU_nil] at hend
    simp only [List.length_nil, Nat.add_zero] at hend
    refine ⟨bS, ?_, ?_, ?_⟩
    · rw [hend]
      exact hnz
    · exact Conf.cons (bS + 1) body body rest bS fr hsegb rfl hsegb hnz hrest
    · rw [hend]
      exact hrest

theorem conf_fetch {C : List Op} {n : Nat} {x : Node} {curT : List Node}
    {fr : List (List Node × List Node)} (h : Conf C n (x :: curT) fr)
    (b : Op) (B : List Op) (hb : flatU1 n x = b :: B) : C[n]? = some b := by
  have hseg := conf_segAt h
  have h2 := hseg 0 (by
    rw [flatU_cons, hb]
    simp)
  rw [flatU_cons, hb] at h2
  simpa using h2

theorem flatU1_loop (n : Nat) (body : List Node) :
    flatU1 n (Node.loop body) =
      Op.jmpZ (n + (flatU (n + 1) body).length + 2) ::
        flatU (n + 1) body ++ Op.jmpNz (n + 1) :: [] := by
  rw [flatU1]

theorem flatU1_loop_length (n : Nat) (body : List Node) :
    (flatU1 n (Node.loop body)).length = (flatU (n + 1) body).length + 2 := by
  rw [flatU1_loop]
  simp only [List.length_cons, List.length_append, List.length_nil]

theorem conf_loop_enter {C : List Op} {n : Nat} {body curT : List Node}
    {fr : List (List Node × List Node)}
    (h : Conf C n (Node.loop body :: curT) fr) :
    Conf C (n + 1) body ((body, curT) :: fr) := by
  have hseg := conf_segAt h
  have hadv := conf_advance h
  rw [flatU1_loop_length] at hadv
  have hlen : n + ((flatU (n + 1) body).length + 2) =
      n + 1 + (flatU (n + 1) body).length + 1 := by omega
  rw [hlen] at hadv
  have hsb : SegAt C (n + 1) (flatU (n + 1) body) := by
    intro i hi
    have h2 := hseg (1 + i) (by
      rw [flatU_cons]
      simp only [List.length_append, flatU1_loop_length]
      omega)
    rw [flatU_cons] at h2
    rw [List.getElem?_append_left (by
      rw [flatU1_loop_length]
      omega)] at h2
    rw [flatU1_loop, List.cons_append] at h2
    have e2 : 1 + i = i + 1 := by omega
    rw [e2, List.getElem?_cons_succ] at h2
    rw [List.getElem?_append_left hi] at h2
    have e1 : n + (i + 1) = (n + 1) + i := by omega
    rw [e1] at h2
    exact h2
  have hnz : C[n + 1 + (flatU (n + 1) body).length]? = some (Op.jmpNz (n + 1)) := by
    have h2 := hseg (1 + (flatU (n + 1) body).length) (by
      rw [flatU_cons]
      simp only [List.length_append, flatU1_loop_length]
      omega)
    rw [flatU_cons] at h2
    rw [List.getElem?_append_left (by
      rw [flatU1_loop_length]
      omega)] at h2
    rw [flatU1_loop, List.cons_append] at h2
    have e2 : 1 + (flatU (n + 1) body).length = (flatU (n + 1) body).length + 1 := by
      omega
    rw [e2, List.getElem?_cons_succ] at h2
    rw [List.getElem?_append_right (Nat.le_refl _)] at h2
    simp only [Nat.sub_self, List.getElem?_cons_zero] at h2
    have e1 : n + ((flatU (n + 1) body).length + 1) = n + 1 + (flatU (n + 1) body).length := by
      omega
    rw [e1] at h2
    exact h2
  exact Conf.cons (n + 1) body body curT n fr hsb rfl hsb hnz hadv

def WFL (ns : List Node) : Prop := ∀ x ∈ ns, WFN x

def MWF (m : MState) : Prop :=
  WFL m.cur ∧ ∀ p ∈ m.fr, WFL p.1 ∧ WFL p.2

/-- The structured machine state `m` matches the flat executor state `s`
running the unfolded flattening `C`. -/
def MRel (C : List Op) (m : MState) (s : EState) : Prop :=
  Conf C s.ip m.cur m.fr ∧ m.tape = s.tape ∧ m.ptr = s.ptr ∧
    m.rdr = s.rdr ∧ m.wr = s.wr ∧ m.out = s.out

theorem flatU_mv_shift (n : Nat) (u : Int) (us : List Int) (t : List Node) :
    flatU n (Node.mv (u :: us) :: t) =
      Op.move u :: flatU (n + 1) (if us = [] then t else Node.mv us :: t) := by
  by_cases hus : us = []
  · subst hus
    rw [if_pos rfl, flatU_cons, flatU1]
    simp
  · rw [if_neg hus, flatU_cons, flatU_cons, flatU1, flatU1]
    simp only [List.map_cons, List.cons_append, List.length_map, List.length_cons]
    have e : n + (us.length + 1) = n + 1 + us.length := by omega
    rw [e]

theorem flatU_ad_shift (n : Nat) (u : Int) (us : List Int) (t : List Node) :
    flatU n (Node.ad (u :: us) :: t) =
      Op.add u :: flatU (n + 1) (if us = [] then t else Node.ad us :: t) := by
  by_cases hus : us = []
  · subst hus
    rw [if_pos rfl, flatU_cons, flatU1]
    simp
  · rw [if_neg hus, flatU_cons, flatU_cons, flatU1, flatU1]
    simp only [List.map_cons, List.cons_append, List.length_map, List.length_cons]
    have e : n + (us.length + 1) = n + 1 + us.length := by omega
    rw [e]

theorem flatU_out_shift (n : Nat) (t : List Node) :
    flatU n (Node.out :: t) = Op.out :: flatU (n + 1) t := by
  rw [flatU_cons, flatU1]
  simp

theorem flatU_inp_shift (n : Nat) (t : List Node) :
    flatU n (Node.inp :: t) = Op.inp :: flatU (n + 1) t := by
  rw [flatU_cons, flatU1]
  simp

theorem wfn_mv_inv {run : List Int} (h : WFN (Node.mv run)) : run ≠ [] := by
  cases h with
  | mv _ hne => exact hne

theorem wfn_ad_inv {run : List Int} (h : WFN (Node.ad run)) : run ≠ [] := by
  cases h with
  | ad _ hne => exact hne

theorem wfn_loop_inv {body : List Node} (h : WFN (Node.loop body)) : WFL body := by
  cases h with
  | loop _ hb => exact hb

/-- One-step lockstep between the structured machine and the flat executor
of an unfolded flattening: they terminate together with the same outcome
and output, or both step to related states. -/
theorem lockstep (C : List Op) (m : MState) (s : EState)
    (hrel : MRel C m s) (hwf : MWF m) :
    (∃ r m' s', mstep m = .done r m' ∧ step C s = .done r s' ∧ m'.out = s'.out) ∨
    (∃ m' s', mstep m = .next m' ∧ step C s = .next s' ∧ MRel C m' s' ∧ MWF m') := by
  obtain ⟨hconf0, htape0, hptr0, hrdr0, hwr0, hout0⟩ := hrel
  obtain ⟨hwfc0, hwff0⟩ := hwf
  obtain ⟨cur, fr, mtape, mptr, mrdr, mwr, mout⟩ := m
  obtain ⟨ip, stape, sptr, srdr, swr, sout⟩ := s
  have htape : mtape = stape := htape0
  have hptr : mptr = sptr := hptr0
  have hrdr : mrdr = srdr := hrdr0
  have hwr : mwr = swr := hwr0
  have hout : mout = sout := hout0
  subst htape hptr hrdr hwr hout
  have hconf : Conf C ip cur fr := hconf0
  have hwfc : WFL cur := hwfc0
  have hwff : ∀ p ∈ fr, WFL p.1 ∧ WFL p.2 := hwff0
  clear hconf0 hwfc0 hwff0 htape0 hptr0 hrdr0 hwr0 hout0
  cases cur with
  | nil =>
    cases fr with
    | nil =>
      left
      have hhalt := conf_halt hconf
      refine ⟨.ok (), ⟨[], [], mtape, mptr, mrdr, mwr, mout⟩,
        ⟨ip, mtape, mptr, mrdr, mwr, mout⟩, rfl, ?_, rfl⟩
      simp only [step, hhalt]
    | cons p fr' =>
      obtain ⟨body, rest⟩ := p
      obtain ⟨bS, hfetch, hre, hnext⟩ := conf_pop hconf
      by_cases hc : mtape mptr ≠ 0
      · right
        refine ⟨⟨body, (body, rest) :: fr', mtape, mptr, mrdr, mwr, mout⟩,
          ⟨bS + 1, mtape, mptr, mrdr, mwr, mout⟩, ?_, ?_, ?_, ?_⟩
        · show mstep _ = _
          simp only [mstep]
          rw [if_pos hc]
        · simp only [step, hfetch]
          rw [if_pos hc]
          have e : bS + 1 - 1 + 1 = bS + 1 := by omega
          rw [e]
        · exact ⟨hre, rfl, rfl, rfl, rfl, rfl⟩
        · exact ⟨(hwff (body, rest) (by simp)).1, hwff⟩
      · right
        refine ⟨⟨rest, fr', mtape, mptr, mrdr, mwr, mout⟩,
          ⟨ip + 1, mtape, mptr, mrdr, mwr, mout⟩, ?_, ?_, ?_, ?_⟩
        · show mstep _ = _
          simp only [mstep]
          rw [if_neg hc]
        · simp only [step, hfetch]
          rw [if_neg hc]
        · exact ⟨hnext, rfl, rfl, rfl, rfl, rfl⟩
        · exact ⟨(hwff (body, rest) (by simp)).2, fun p hp => hwff p (by simp [hp])⟩
  | cons x t =>
    cases x with
    | mv run =>
      cases run with
      | nil =>
        exact absurd (wfn_mv_inv (hwfc (Node.mv []) (by simp))) (by simp)
      | cons u us =>
        have hfetch : C[ip]? = some (Op.move u) :=
          conf_fetch hconf (Op.move u) (us.map Op.move) (by
            rw [flatU1]
            rfl)
        by_cases hob : (u < 0 ∧ -u > (mptr : Int)) ∨ (mptr : Int) + u ≥ 30000
        · left
          refine ⟨.error (.dataOverflow ((mptr : Int) + u)),
            ⟨Node.mv (u :: us) :: t, fr, mtape, mptr, mrdr, mwr, mout⟩,
            ⟨ip, mtape, mptr, mrdr, mwr, mout⟩, ?_, ?_, rfl⟩
          · show mstep _ = _
            simp only [mstep]
            rw [if_pos hob]
          · simp only [step, hfetch]
            rw [if_pos hob]
        · right
          refine ⟨⟨if us = [] then t else Node.mv us :: t, fr, mtape,
              ((mptr : Int) + u).toNat, mrdr, mwr, mout⟩,
            ⟨ip + 1, mtape, ((mptr : Int) + u).toNat, mrdr, mwr, mout⟩, ?_, ?_, ?_, ?_⟩
          · show mstep _ = _
            simp only [mstep]
            rw [if_neg hob]
          · simp only [step, hfetch]
            rw [if_neg hob]
          · exact ⟨conf_shift (flatU_mv_shift ip u us t) hconf, rfl, rfl, rfl, rfl, rfl⟩
          · refine ⟨?_, hwff⟩
            by_cases hus : us = []
            · rw [if_pos hus]
              intro y hy
              exact hwfc y (List.mem_cons_of_mem _ hy)
            · rw [if_neg hus]
              intro y hy
              rcases List.mem_cons.mp hy with rfl | hy
              · exact WFN.mv us hus
              · exact hwfc y (List.mem_cons_of_mem _ hy)
    | ad run =>
      cases run with
      | nil =>
        exact absurd (wfn_ad_inv (hwfc (Node.ad []) (by simp))) (by simp)
      | cons u us =>
        have hfetch : C[ip]? = some (Op.add u) :=
          conf_fetch hconf (Op.add u) (us.map Op.add) (by
            rw [flatU1]
            rfl)
        right
        refine ⟨⟨if us = [] then t else Node.ad us :: t, fr,
            fun j => if j = mptr then wrap8 ((mtape mptr : Int) + u) else mtape j,
            mptr, mrdr, mwr, mout⟩,
          ⟨ip + 1, fun j => if j = mptr then wrap8 ((mtape mptr : Int) + u) else mtape j,
            mptr, mrdr, mwr, mout⟩, ?_, ?_, ?_, ?_⟩
        · show mstep _ = _
          simp only [mstep]
        · simp only [step, hfetch]
        · exact ⟨conf_shift (flatU_ad_shift ip u us t) hconf, rfl, rfl, rfl, rfl, rfl⟩
        · refine ⟨?_, hwff⟩
          by_cases hus : us = []
          · rw [if_pos hus]
            intro y hy
            exact hwfc y (List.mem_cons_of_mem _ hy)
          · rw [if_neg hus]
            intro y hy
            rcases List.mem_cons.mp hy with rfl | hy
            · exact WFN.ad us hus
            · exact hwfc y (List.mem_cons_of_mem _ hy)
    | out =>
      have hfetch : C[ip]? = some Op.out :=
        conf_fetch hconf Op.out [] (by rw [flatU1])
      have hwft : WFL t := fun y hy => hwfc y (List.mem_cons_of_mem _ hy)
      cases mwr with
      | nil =>
        right
        refine ⟨⟨t, fr, mtape, mptr, mrdr, [], mout ++ [mtape mptr]⟩,
          ⟨ip + 1, mtape, mptr, mrdr, [], mout ++ [mtape mptr]⟩, ?_, ?_, ?_, ?_⟩
        · show mstep _ = _
          simp only [mstep]
        · simp only [step, hfetch]
        · exact ⟨conf_shift (flatU_out_shift ip t) hconf, rfl, rfl, rfl, rfl, rfl⟩
        · exact ⟨hwft, hwff⟩
      | cons o wr' =>
        cases o with
        | none =>
          right
          refine ⟨⟨t, fr, mtape, mptr, mrdr, wr', mout ++ [mtape mptr]⟩,
            ⟨ip + 1, mtape, mptr, mrdr, wr', mout ++ [mtape mptr]⟩, ?_, ?_, ?_, ?_⟩
          · show mstep _ = _
            simp only [mstep]
          · simp only [step, hfetch]
          · exact ⟨conf_shift (flatU_out_shift ip t) hconf, rfl, rfl, rfl, rfl, rfl⟩
          · exact ⟨hwft, hwff⟩
        | some msg =>
          left
          refine ⟨.error (.ioErr msg),
            ⟨Node.out :: t, fr, mtape, mptr, mrdr, some msg :: wr', mout⟩,
            ⟨ip, mtape, mptr, mrdr, some msg :: wr', mout⟩, rfl, ?_, rfl⟩
          simp only [step, hfetch]
    | inp =>
      have hfetch : C[ip]? = some Op.inp :=
        conf_fetch hconf Op.inp [] (by rw [flatU1])
      have hwft : WFL t := fun y hy => hwfc y (List.mem_cons_of_mem _ hy)
      cases mrdr with
      | nil =>
        left
        refine ⟨.error (.ioErr eofMsg),
          ⟨Node.inp :: t, fr, mtape, mptr, [], mwr, mout⟩,
          ⟨ip, mtape, mptr, [], mwr, mout⟩, rfl, ?_, rfl⟩
        simp only [step, hfetch]
      | cons o rdr' =>
        cases o with
        | error msg =>
          left
          refine ⟨.error (.ioErr msg),
            ⟨Node.inp :: t, fr, mtape, mptr, .error msg :: rdr', mwr, mout⟩,
            ⟨ip, mtape, mptr, .error msg :: rdr', mwr, mout⟩, rfl, ?_, rfl⟩
          simp only [step, hfetch]
        | ok b =>
          right
          refine ⟨⟨t, fr, fun j => if j = mptr then b % 256 else mtape j,
              mptr, rdr', mwr, mout⟩,
            ⟨ip + 1, fun j => if j = mptr then b % 256 else mtape j,
              mptr, rdr', mwr, mout⟩, ?_, ?_, ?_, ?_⟩
          · show mstep _ = _
            simp only [mstep]
          · simp only [step, hfetch]
          · exact ⟨conf_shift (flatU_inp_shift ip t) hconf, rfl, rfl, rfl, rfl, rfl⟩
          · exact ⟨hwft, hwff⟩
    | loop body =>
      have hfetch : C[ip]? = some (Op.jmpZ (ip + (flatU (ip + 1) body).length + 2)) :=
        conf_fetch hconf (Op.jmpZ (ip + (flatU (ip + 1) body).length + 2))
          (flatU (ip + 1) body ++ [Op.jmpNz (ip + 1)]) (by
            rw [flatU1_loop]
            rfl)
      have hwft : WFL t := fun y hy => hwfc y (List.mem_cons_of_mem _ hy)
      by_cases hc : mtape mptr = 0
      · right
        refine ⟨⟨t, fr, mtape, mptr, mrdr, mwr, mout⟩,
          ⟨ip + ((flatU (ip + 1) body).length + 2), mtape, mptr, mrdr, mwr, mout⟩,
          ?_, ?_, ?_, ?_⟩
        · show mstep _ = _
          simp only [mstep]
          rw [if_pos hc]
        · simp only [step, hfetch]
          rw [if_pos hc]
          have e : ip + (flatU (ip + 1) body).length + 2 - 1 + 1 =
              ip + ((flatU (ip + 1) body).length + 2) := by omega
          rw [e]
        · refine ⟨?_, rfl, rfl, rfl, rfl, rfl⟩
          have hadv := conf_advance hconf
          rw [flatU1_loop_length] at hadv
          exact hadv
        · exact ⟨hwft, hwff⟩
      · right
        refine ⟨⟨body, (body, t) :: fr, mtape, mptr, mrdr, mwr, mout⟩,
          ⟨ip + 1, mtape, mptr, mrdr, mwr, mout⟩, ?_, ?_, ?_, ?_⟩
        · show mstep _ = _
          simp only [mstep]
          rw [if_neg hc]
        · simp only [step, hfetch]
          rw [if_neg hc]
        · exact ⟨conf_loop_enter hconf, rfl, rfl, rfl, rfl, rfl⟩
        · refine ⟨wfn_loop_inv (hwfc (Node.loop body) (by simp)), ?_⟩
          intro p hp
          rcases List.mem_cons.mp hp with rfl | hp
          · exact ⟨wfn_loop_inv (hwfc (Node.loop body) (by simp)), hwft⟩
          · exact hwff p hp

/-- Iterated lockstep: the two machines produce the same observable outcome
(result and output) with the same fuel. -/
theorem lockstep_run (C : List Op) : ∀ (fuel : Nat) (m : MState) (s : EState),
    MRel C m s → MWF m →
    (mrun fuel m).map (fun p => (p.1, p.2.out)) =
      (run C fuel s).map (fun p => (p.1, p.2.out)) := by
  intro fuel
  induction fuel with
  | zero =>
    intro m s _ _
    rfl
  | succ fuel ih =>
    intro m s hrel hwf
    rcases lockstep C m s hrel hwf with
      ⟨r, m', s', hm, hs, hout⟩ | ⟨m', s', hm, hs, hrel', hwf'⟩
    · simp only [mrun, run, hm, hs]
      simp [hout]
    · simp only [mrun, run, hm, hs]
      exact ih m' s' hrel' hwf'

def tapeLt (tp : Nat → Nat) : Prop := ∀ j, tp j < 256

theorem wrap8_lt (x : Int) : wrap8 x < 256 := by
  unfold wrap8
  omega

theorem wrap8_wrap8_add (x y : Int) : wrap8 ((wrap8 x : Int) + y) = wrap8 (x + y) := by
  unfold wrap8
  omega

def frameFold (fr : List (List Node × List Node)) : List (List Node × List Node) :=
  fr.map (fun p => (foldAst p.1, foldAst p.2))

/-- The folded structured machine `mF` simulates the raw structured machine
`mA`, possibly lagging in the middle of a `mv`/`ad` run. -/
def FRel (mA mF : MState) : Prop :=
  mF.fr = frameFold mA.fr ∧ mF.rdr = mA.rdr ∧ mF.wr = mA.wr ∧ mF.out = mA.out ∧
  ((mF.cur = foldAst mA.cur ∧ mF.tape = mA.tape ∧ mF.ptr = mA.ptr)
   ∨ (∃ rem t d0, mA.cur = Node.mv rem :: t ∧ rem ≠ [] ∧
        mF.cur = (if d0 ≠ 0 then [Node.mv [d0]] else []) ++ foldAst t ∧
        mF.tape = mA.tape ∧ (mF.ptr : Int) + d0 = (mA.ptr : Int) + rem.sum)
   ∨ (∃ rem t d0, mA.cur = Node.ad rem :: t ∧ rem ≠ [] ∧
        mF.cur = (if d0 ≠ 0 then [Node.ad [d0]] else []) ++ foldAst t ∧
        mF.ptr = mA.ptr ∧ mF.tape mA.ptr < 256 ∧
        wrap8 ((mF.tape mA.ptr : Int) + d0) = wrap8 ((mA.tape mA.ptr : Int) + rem.sum) ∧
        (∀ j, j ≠ mA.ptr → mF.tape j = mA.tape j)))

theorem mstep_tapeLt (mA mA' : MState) (hb : tapeLt mA.tape)
    (h : mstep mA = .next mA') : tapeLt mA'.tape := by
  obtain ⟨cur, fr, tp, ptr, rdr, wr, out⟩ := mA
  have hb' : tapeLt tp := hb
  cases cur with
  | nil =>
    cases fr with
    | nil => simp [mstep] at h
    | cons p fr' =>
      obtain ⟨b, r⟩ := p
      simp only [mstep] at h
      split at h
      · cases h
        exact hb'
      · cases h
        exact hb'
  | cons x t =>
    cases x with
    | mv run =>
      cases run with
      | nil =>
        simp only [mstep] at h
        cases h
        exact hb'
      | cons u us =>
        simp only [mstep] at h
        split at h
        · cases h
        · cases h
          exact hb'
    | ad run =>
      cases run with
      | nil =>
        simp only [mstep] at h
        cases h
        exact hb'
      | cons u us =>
        simp only [mstep] at h
        cases h
        intro j
        by_cases hj : j = ptr
        · simp only [hj, if_pos rfl]
          exact wrap8_lt _
        · simp only [if_neg hj]
          exact hb' j
    | out =>
      simp only [mstep] at h
      rcases wr with - | ⟨- | msg, wr'⟩
      · cases h
        exact hb'
      · cases h
        exact hb'
      · cases h
    | inp =>
      simp only [mstep] at h
      rcases rdr with - | ⟨msg | b, rdr'⟩
      · cases h
      · cases h
      · cases h
        intro j
        by_cases hj : j = ptr
        · subst hj
          have hlt : b % 256 < 256 := by omega
          simpa using hlt
        · simp only [if_neg hj]
          exact hb' j
    | loop body =>
      simp only [mstep] at h
      split at h
      · cases h
        exact hb'
      · cases h
        exact hb'

theorem frameFold_nil : frameFold [] = [] := rfl

theorem frameFold_cons (p : List Node × List Node)
    (fr : List (List Node × List Node)) :
    frameFold (p :: fr) = (foldAst p.1, foldAst p.2) :: frameFold fr := rfl

theorem foldAst_cons_mv (run : List Int) (xs : List Node) :
    foldAst (Node.mv run :: xs) =
      (if run.sum ≠ 0 then [Node.mv [run.sum]] else []) ++ foldAst xs := by
  rw [foldAst]

theorem foldAst_cons_ad (run : List Int) (xs : List Node) :
    foldAst (Node.ad run :: xs) =
      (if run.sum ≠ 0 then [Node.ad [run.sum]] else []) ++ foldAst xs := by
  rw [foldAst]

theorem foldAst_cons_out (xs : List Node) :
    foldAst (Node.out :: xs) = Node.out :: foldAst xs := by
  rw [foldAst]

theorem foldAst_cons_inp (xs : List Node) :
    foldAst (Node.inp :: xs) = Node.inp :: foldAst xs := by
  rw [foldAst]

theorem foldAst_cons_loop (body xs : List Node) :
    foldAst (Node.loop body :: xs) = Node.loop (foldAst body) :: foldAst xs := by
  rw [foldAst]

theorem fold_step_aligned (curA : List Node) (frA : List (List Node × List Node))
    (tpA : Nat → Nat) (ptrA : Nat) (rdrA : List (Except String Nat))
    (wrA : List (Option String)) (outA : List Nat) (mA' : MState)
    (hb : tapeLt tpA)
    (h : mstep ⟨curA, frA, tpA, ptrA, rdrA, wrA, outA⟩ = .next mA') :
    FRel mA' ⟨foldAst curA, frameFold frA, tpA, ptrA, rdrA, wrA, outA⟩ ∨
    (∃ mF', mstep ⟨foldAst curA, frameFold frA, tpA, ptrA, rdrA, wrA, outA⟩ = .next mF' ∧
      FRel mA' mF') := by
  cases curA with
  | nil =>
    cases frA with
    | nil => simp [mstep] at h
    | cons p frA' =>
      obtain ⟨b, r⟩ := p
      simp only [mstep] at h
      right
      rw [foldAst_nil, frameFold_cons]
      split at h
      · cases h
        rename_i hc
        refine ⟨⟨foldAst b, (foldAst b, foldAst r) :: frameFold frA', tpA, ptrA,
          rdrA, wrA, outA⟩, ?_, ?_⟩
        · simp only [mstep]
          rw [if_pos hc]
        · exact ⟨rfl, rfl, rfl, rfl, Or.inl ⟨rfl, rfl, rfl⟩⟩
      · cases h
        rename_i hc
        refine ⟨⟨foldAst r, frameFold frA', tpA, ptrA, rdrA, wrA, outA⟩, ?_, ?_⟩
        · simp only [mstep]
          rw [if_neg hc]
        · exact ⟨rfl, rfl, rfl, rfl, Or.inl ⟨rfl, rfl, rfl⟩⟩
  | cons x t =>
    cases x with
    | mv run =>
      cases run with
      | nil =>
        simp only [mstep] at h
        cases h
        left
        refine ⟨rfl, rfl, rfl, rfl, Or.inl ⟨?_, rfl, rfl⟩⟩
        rw [foldAst_cons_mv]
        simp
      | cons u us =>
        simp only [mstep] at h
        split at h
        · cases h
        cases h
        rename_i hob
        by_cases hus : us = []
        · subst hus
          by_cases hu : (u :: ([] : List Int)).sum ≠ 0
          · right
            refine ⟨⟨foldAst t, frameFold frA, tpA, ((ptrA : Int) + u).toNat,
              rdrA, wrA, outA⟩, ?_, ?_⟩
            · rw [foldAst_cons_mv, if_pos hu]
              simp only [List.cons_append, List.nil_append, mstep]
              rw [if_neg (by
                simp only [List.sum_cons, List.sum_nil, Int.add_zero] at hu ⊢
                exact hob)]
              have e : ((u :: []).sum : Int) = u := by simp
              rw [e]
              simp
            · refine ⟨rfl, rfl, rfl, rfl, Or.inl ⟨?_, rfl, rfl⟩⟩
              simp
          · left
            rw [foldAst_cons_mv, if_neg hu, List.nil_append]
            refine ⟨rfl, rfl, rfl, rfl, Or.inl ⟨?_, rfl, ?_⟩⟩
            · simp
            · show ptrA = (((ptrA : Int) + u).toNat : Nat)
              simp only [List.sum_cons, List.sum_nil, Int.add_zero] at hu
              have hu0 : u = 0 := by
                by_contra hne
                exact hu hne
              subst hu0
              omega
        · left
          rw [foldAst_cons_mv]
          refine ⟨rfl, rfl, rfl, rfl, Or.inr (Or.inl ⟨us, t, (u :: us).sum, ?_, hus, rfl, rfl, ?_⟩)⟩
          · simp [hus]
          · show (ptrA : Int) + (u :: us).sum = ((((ptrA : Int) + u).toNat : Nat) : Int) + us.sum
            have hnn : 0 ≤ (ptrA : Int) + u := by omega
            rw [List.sum_cons, Int.toNat_of_nonneg hnn]
            omega
    | ad run =>
      cases run with
      | nil =>
        simp only [mstep] at h
        cases h
        left
        refine ⟨rfl, rfl, rfl, rfl, Or.inl ⟨?_, rfl, rfl⟩⟩
        rw [foldAst_cons_ad]
        simp
      | cons u us =>
        simp only [mstep] at h
        cases h
        by_cases hus : us = []
        · subst hus
          by_cases hu : (u :: ([] : List Int)).sum ≠ 0
          · right
            refine ⟨⟨foldAst t, frameFold frA, fun j => if j = ptrA then
                wrap8 ((tpA ptrA : Int) + u) else tpA j, ptrA, rdrA, wrA, outA⟩, ?_, ?_⟩
            · rw [foldAst_cons_ad, if_pos hu]
              simp only [List.cons_append, List.nil_append, mstep]
              have e : ((u :: []).sum : Int) = u := by simp
              rw [e]
              simp
            · refine ⟨rfl, rfl, rfl, rfl, Or.inl ⟨?_, rfl, rfl⟩⟩
              simp
          · left
            rw [foldAst_cons_ad, if_neg hu, List.nil_append]
            refine ⟨rfl, rfl, rfl, rfl, Or.inl ⟨?_, ?_, rfl⟩⟩
            · simp
            · show tpA = fun j => if j = ptrA then wrap8 ((tpA ptrA : Int) + u) else tpA j
              funext j
              by_cases hj : j = ptrA
              · subst hj
                rw [if_pos rfl]
                simp only [List.sum_cons, List.sum_nil, Int.add_zero] at hu
                have hu0 : u = 0 := by
                  by_contra hne
                  exact hu hne
                subst hu0
                have hlt := hb j
                unfold wrap8
                omega
              · rw [if_neg hj]
        · left
          rw [foldAst_cons_ad]
          refine ⟨rfl, rfl, rfl, rfl, Or.inr (Or.inr ⟨us, t, (u :: us).sum, ?_, hus, rfl,
            rfl, ?_, ?_, ?_⟩)⟩
          · simp [hus]
          · show tpA (((ptrA, rdrA, wrA, outA).1 : Nat)) < 256
            exact hb _
          · show wrap8 ((tpA ptrA : Int) + (u :: us).sum) =
              wrap8 (((if ptrA = ptrA then wrap8 ((tpA ptrA : Int) + u) else tpA ptrA) : Nat) + us.sum)
            rw [if_pos rfl, wrap8_wrap8_add, List.sum_cons]
            congr 1
            omega
          · intro j hj
            show tpA j = if j = ptrA then wrap8 ((tpA ptrA : Int) + u) else tpA j
            rw [if_neg hj]
    | out =>
      rw [foldAst_cons_out]
      simp only [mstep] at h
      rcases wrA with - | ⟨- | msg, wr'⟩
      · cases h
        right
        refine ⟨⟨foldAst t, frameFold frA, tpA, ptrA, rdrA, [], outA ++ [tpA ptrA]⟩, ?_, ?_⟩
        · simp only [mstep]
        · exact ⟨rfl, rfl, rfl, rfl, Or.inl ⟨rfl, rfl, rfl⟩⟩
      · cases h
        right
        refine ⟨⟨foldAst t, frameFold frA, tpA, ptrA, rdrA, wr', outA ++ [tpA ptrA]⟩, ?_, ?_⟩
        · simp only [mstep]
        · exact ⟨rfl, rfl, rfl, rfl, Or.inl ⟨rfl, rfl, rfl⟩⟩
      · cases h
    | inp =>
      rw [foldAst_cons_inp]
      simp only [mstep] at h
      rcases rdrA with - | ⟨msg | b, rdr'⟩
      · cases h
      · cases h
      · cases h
        right
        refine ⟨⟨foldAst t, frameFold frA, fun j => if j = ptrA then b % 256 else tpA j,
          ptrA, rdr', wrA, outA⟩, ?_, ?_⟩
        · simp only [mstep]
        · exact ⟨rfl, rfl, rfl, rfl, Or.inl ⟨rfl, rfl, rfl⟩⟩
    | loop body =>
      rw [foldAst_cons_loop]
      simp only [mstep] at h
      split at h
      · cases h
        rename_i hc
        right
        refine ⟨⟨foldAst t, frameFold frA, tpA, ptrA, rdrA, wrA, outA⟩, ?_, ?_⟩
        · simp only [mstep]
          rw [if_pos hc]
        · exact ⟨rfl, rfl, rfl, rfl, Or.inl ⟨rfl, rfl, rfl⟩⟩
      · cases h
        rename_i hc
        right
        refine ⟨⟨foldAst body, (foldAst body, foldAst t) :: frameFold frA, tpA, ptrA,
          rdrA, wrA, outA⟩, ?_, ?_⟩
        · simp only [mstep]
          rw [if_neg hc]
        · exact ⟨rfl, rfl, rfl, rfl, Or.inl ⟨rfl, rfl, rfl⟩⟩

theorem fold_step_midMv (rem : List Int) (t : List Node)
    (frA : List (List Node × List Node)) (tpA : Nat → Nat) (ptrA ptrF : Nat)
    (rdrA : List (Except String Nat)) (wrA : List (Option String))
    (outA : List Nat) (d0 : Int) (mA' : MState)
    (hne : rem ≠ []) (hsum : (ptrF : Int) + d0 = (ptrA : Int) + rem.sum)
    (h : mstep ⟨Node.mv rem :: t, frA, tpA, ptrA, rdrA, wrA, outA⟩ = .next mA') :
    FRel mA' ⟨(if d0 ≠ 0 then [Node.mv [d0]] else []) ++ foldAst t, frameFold frA,
      tpA, ptrF, rdrA, wrA, outA⟩ ∨
    (∃ mF', mstep ⟨(if d0 ≠ 0 then [Node.mv [d0]] else []) ++ foldAst t, frameFold frA,
        tpA, ptrF, rdrA, wrA, outA⟩ = .next mF' ∧ FRel mA' mF') := by
  cases rem with
  | nil => exact absurd rfl hne
  | cons u us =>
    simp only [mstep] at h
    split at h
    · cases h
    cases h
    rename_i hob
    rw [List.sum_cons] at hsum
    by_cases hus : us = []
    · subst hus
      simp only [List.sum_nil, Int.add_zero] at hsum
      by_cases hd : d0 ≠ 0
      · right
        refine ⟨⟨foldAst t, frameFold frA, tpA, ((ptrF : Int) + d0).toNat,
          rdrA, wrA, outA⟩, ?_, ?_⟩
        · rw [if_pos hd]
          simp only [List.cons_append, List.nil_append, mstep]
          have e : (([d0] : List Int).sum : Int) = d0 := by simp
          rw [if_neg (by omega)]
          simp
        · refine ⟨rfl, rfl, rfl, rfl, Or.inl ⟨?_, rfl, ?_⟩⟩
          · simp
          · show (((ptrF : Int) + d0).toNat : Nat) = (((ptrA : Int) + u).toNat : Nat)
            omega
      · left
        rw [if_neg hd, List.nil_append]
        have hd0 : d0 = 0 := by
          by_contra hne2
          exact hd hne2
        subst hd0
        refine ⟨rfl, rfl, rfl, rfl, Or.inl ⟨?_, rfl, ?_⟩⟩
        · simp
        · show ptrF = (((ptrA : Int) + u).toNat : Nat)
          omega
    · left
      refine ⟨rfl, rfl, rfl, rfl, Or.inr (Or.inl ⟨us, t, d0, ?_, hus, rfl, rfl, ?_⟩)⟩
      · simp [hus]
      · show (ptrF : Int) + d0 = ((((ptrA : Int) + u).toNat : Nat) : Int) + us.sum
        have hnn : 0 ≤ (ptrA : Int) + u := by omega
        rw [Int.toNat_of_nonneg hnn]
        omega

theorem fold_step_midAd (rem : List Int) (t : List Node)
    (frA : List (List Node × List Node)) (tpA tpF : Nat → Nat) (ptrA : Nat)
    (rdrA : List (Except String Nat)) (wrA : List (Option String))
    (outA : List Nat) (d0 : Int) (mA' : MState)
    (hne : rem ≠ []) (hFlt : tpF ptrA < 256)
    (hwrap : wrap8 ((tpF ptrA : Int) + d0) = wrap8 ((tpA ptrA : Int) + rem.sum))
    (hoff : ∀ j, j ≠ ptrA → tpF j = tpA j)
    (h : mstep ⟨Node.ad rem :: t, frA, tpA, ptrA, rdrA, wrA, outA⟩ = .next mA') :
    FRel mA' ⟨(if d0 ≠ 0 then [Node.ad [d0]] else []) ++ foldAst t, frameFold frA,
      tpF, ptrA, rdrA, wrA, outA⟩ ∨
    (∃ mF', mstep ⟨(if d0 ≠ 0 then [Node.ad [d0]] else []) ++ foldAst t, frameFold frA,
        tpF, ptrA, rdrA, wrA, outA⟩ = .next mF' ∧ FRel mA' mF') := by
  cases rem with
  | nil => exact absurd rfl hne
  | cons u us =>
    simp only [mstep] at h
    cases h
    rw [List.sum_cons] at hwrap
    by_cases hus : us = []
    · subst hus
      simp only [List.sum_nil, Int.add_zero] at hwrap
      by_cases hd : d0 ≠ 0
      · right
        refine ⟨⟨foldAst t, frameFold frA,
          fun j => if j = ptrA then wrap8 ((tpF ptrA : Int) + d0) else tpF j,
          ptrA, rdrA, wrA, outA⟩, ?_, ?_⟩
        · rw [if_pos hd]
          simp only [List.cons_append, List.nil_append, mstep]
          simp
        · refine ⟨rfl, rfl, rfl, rfl, Or.inl ⟨?_, ?_, rfl⟩⟩
          · simp
          · show (fun j => if j = ptrA then wrap8 ((tpF ptrA : Int) + d0) else tpF j) =
              fun j => if j = ptrA then wrap8 ((tpA ptrA : Int) + u) else tpA j
            funext j
            by_cases hj : j = ptrA
            · subst hj
              rw [if_pos rfl, if_pos rfl, hwrap]
            · rw [if_neg hj, if_neg hj]
              exact hoff j hj
      · left
        rw [if_neg hd, List.nil_append]
        have hd0 : d0 = 0 := by
          by_contra hne2
          exact hd hne2
        subst hd0
        refine ⟨rfl, rfl, rfl, rfl, Or.inl ⟨?_, ?_, rfl⟩⟩
        · simp
        · show tpF = fun j => if j = ptrA then wrap8 ((tpA ptrA : Int) + u) else tpA j
          funext j
          by_cases hj : j = ptrA
          · subst hj
            rw [if_pos rfl, ← hwrap]
            unfold wrap8
            omega
          · rw [if_neg hj]
            exact hoff j hj
    · left
      refine ⟨rfl, rfl, rfl, rfl, Or.inr (Or.inr ⟨us, t, d0, ?_, hus, rfl, rfl, ?_, ?_, ?_⟩)⟩
      · simp [hus]
      · show tpF ptrA < 256
        exact hFlt
      · show wrap8 ((tpF ptrA : Int) + d0) =
          wrap8 (((if ptrA = ptrA then wrap8 ((tpA ptrA : Int) + u) else tpA ptrA) : Nat) + us.sum)
        rw [if_pos rfl, wrap8_wrap8_add, hwrap]
        congr 1
        omega
      · intro j hj
        show tpF j = if j = ptrA then wrap8 ((tpA ptrA : Int) + u) else tpA j
        rw [if_neg hj]
        exact hoff j hj

theorem mstep_done_ok (m m' : MState) (h : mstep m = .done (.ok ()) m') :
    m.cur = [] ∧ m.fr = [] ∧ m' = m := by
  obtain ⟨cur, fr, tp, ptr, rdr, wr, out⟩ := m
  cases cur with
  | nil =>
    cases fr with
    | nil =>
      simp only [mstep] at h
      cases h
      exact ⟨rfl, rfl, rfl⟩
    | cons p fr' =>
      obtain ⟨b, r⟩ := p
      simp only [mstep] at h
      split at h <;> cases h
  | cons x t =>
    cases x with
    | mv run =>
      cases run with
      | nil =>
        simp only [mstep] at h
        cases h
      | cons u us =>
        simp only [mstep] at h
        split at h <;> cases h
    | ad run =>
      cases run with
      | nil =>
        simp only [mstep] at h
        cases h
      | cons u us =>
        simp only [mstep] at h
        cases h
    | out =>
      simp only [mstep] at h
      rcases wr with - | ⟨- | msg, wr'⟩ <;> cases h
    | inp =>
      simp only [mstep] at h
      rcases rdr with - | ⟨msg | b, rdr'⟩ <;> cases h
    | loop body =>
      simp only [mstep] at h
      split at h <;> cases h

theorem fold_step (mA mF mA' : MState) (hb : tapeLt mA.tape)
    (hrel : FRel mA mF) (h : mstep mA = .next mA') :
    FRel mA' mF ∨ (∃ mF', mstep mF = .next mF' ∧ FRel mA' mF') := by
  obtain ⟨curA, frA, tpA, ptrA, rdrA, wrA, outA⟩ := mA
  obtain ⟨curF, frF, tpF, ptrF, rdrF, wrF, outF⟩ := mF
  obtain ⟨hfr0, hrdr0, hwr0, hout0, hdis⟩ := hrel
  have hfr : frF = frameFold frA := hfr0
  have hrdr : rdrA = rdrF := hrdr0.symm
  have hwr : wrA = wrF := hwr0.symm
  have hout : outA = outF := hout0.symm
  subst hfr hrdr hwr hout
  rcases hdis with ⟨hcur0, htp0, hptr0⟩ | ⟨rem, t, d0, hA0, hne, hF0, htp0, hsum0⟩ |
    ⟨rem, t, d0, hA0, hne, hF0, hptr0, hFlt0, hwrap0, hoff0⟩
  · have hcur : curF = foldAst curA := hcur0
    have htp : tpA = tpF := htp0.symm
    have hptr : ptrA = ptrF := hptr0.symm
    subst hcur htp hptr
    exact fold_step_aligned curA frA tpA ptrA rdrA wrA outA mA' hb h
  · have hA : curA = Node.mv rem :: t := hA0
    have hF : curF = (if d0 ≠ 0 then [Node.mv [d0]] else []) ++ foldAst t := hF0
    have htp : tpA = tpF := htp0.symm
    subst hA hF htp
    have hsum : (ptrF : Int) + d0 = (ptrA : Int) + rem.sum := hsum0
    exact fold_step_midMv rem t frA tpA ptrA ptrF rdrA wrA outA d0 mA' hne hsum h
  · have hA : curA = Node.ad rem :: t := hA0
    have hF : curF = (if d0 ≠ 0 then [Node.ad [d0]] else []) ++ foldAst t := hF0
    have hptr : ptrA = ptrF := hptr0.symm
    subst hA hF hptr
    have hFlt : tpF ptrA < 256 := hFlt0
    have hwrap : wrap8 ((tpF ptrA : Int) + d0) = wrap8 ((tpA ptrA : Int) + rem.sum) := hwrap0
    have hoff : ∀ j, j ≠ ptrA → tpF j = tpA j := hoff0
    exact fold_step_midAd rem t frA tpA tpF ptrA rdrA wrA outA d0 mA' hne hFlt hwrap hoff h

theorem fold_sim : ∀ (fuel : Nat) (mA mF sA : MState),
    mrun fuel mA = some (.ok (), sA) → FRel mA mF → tapeLt mA.tape →
    ∃ fuel2 sF, mrun fuel2 mF = some (.ok (), sF) ∧ sF.out = sA.out := by
  intro fuel
  induction fuel with
  | zero =>
    intro mA mF sA hrun
    simp [mrun] at hrun
  | succ fuel ih =>
    intro mA mF sA hrun hrel hb
    rw [mrun] at hrun
    cases hm : mstep mA with
    | done r mA2 =>
      rw [hm] at hrun
      cases hrun
      obtain ⟨hcur, hfr, heq⟩ := mstep_done_ok mA sA hm
      obtain ⟨hfrF, hrdrF, hwrF, houtF, hdis⟩ := hrel
      have hcurF : mF.cur = [] := by
        rcases hdis with ⟨hc, -, -⟩ | ⟨rem, t, d0, hA, -⟩ | ⟨rem, t, d0, hA, -⟩
        · rw [hc, hcur, foldAst_nil]
        · rw [hcur] at hA
          cases hA
        · rw [hcur] at hA
          cases hA
      have hfrF2 : mF.fr = [] := by
        rw [hfrF, hfr, frameFold_nil]
      refine ⟨1, mF, ?_, ?_⟩
      · rw [mrun]
        obtain ⟨curF, frF, tpF, ptrF, rdrF, wrF, outF⟩ := mF
        have hc : curF = [] := hcurF
        have hf : frF = [] := hfrF2
        subst hc hf
        simp only [mstep]
      · rw [houtF, heq]
    | next mA2 =>
      rw [hm] at hrun
      rcases fold_step mA mF mA2 hb hrel hm with hrel' | ⟨mF', hstep, hrel'⟩
      · exact ih mA2 mF sA hrun hrel' (mstep_tapeLt mA mA2 hb hm)
      · obtain ⟨fuel2, sF, hrun2, hout2⟩ :=
          ih mA2 mF' sA hrun hrel' (mstep_tapeLt mA mA2 hb hm)
        refine ⟨fuel2 + 1, sF, ?_, hout2⟩
        rw [mrun, hstep]
        exact hrun2

theorem foldAst_wfl : ∀ ns : List Node, WFL (foldAst ns) := by
  intro ns
  induction ns using foldAst.induct with
  | case1 =>
    intro x hx
    rw [foldAst_nil] at hx
    cases hx
  | case2 run xs ih =>
    intro x hx
    rw [foldAst_cons_mv] at hx
    rcases List.mem_append.mp hx with hx | hx
    · by_cases hs : run.sum ≠ 0
      · rw [if_pos hs] at hx
        simp only [List.mem_singleton] at hx
        subst hx
        exact WFN.mv _ (by simp)
      · rw [if_neg hs] at hx
        cases hx
    · exact ih x hx
  | case3 run xs ih =>
    intro x hx
    rw [foldAst_cons_ad] at hx
    rcases List.mem_append.mp hx with hx | hx
    · by_cases hs : run.sum ≠ 0
      · rw [if_pos hs] at hx
        simp only [List.mem_singleton] at hx
        subst hx
        exact WFN.ad _ (by simp)
      · rw [if_neg hs] at hx
        cases hx
    · exact ih x hx
  | case4 xs ih =>
    intro x hx
    rw [foldAst_cons_out] at hx
    rcases List.mem_cons.mp hx with hx | hx
    · subst hx
      exact WFN.out
    · exact ih x hx
  | case5 xs ih =>
    intro x hx
    rw [foldAst_cons_inp] at hx
    rcases List.mem_cons.mp hx with hx | hx
    · subst hx
      exact WFN.inp
    · exact ih x hx
  | case6 body xs ihb ih =>
    intro x hx
    rw [foldAst_cons_loop] at hx
    rcases List.mem_cons.mp hx with hx | hx
    · subst hx
      exact WFN.loop _ ihb
    · exact ih x hx

theorem parseGo_wf (bytes : List Nat) (acc : List Node) (stk : List (List Node)) :
    WFL acc → (∀ e ∈ stk, WFL e) →
      ∀ A, parseGo bytes acc stk = some A → WFL A := by
  induction bytes, acc, stk using parseGo.induct with
  | case1 acc =>
    intro hacc hstk A h
    rw [parseGo.eq_def] at h
    cases h
    exact hacc
  | case2 acc head tail =>
    intro hacc hstk A h
    rw [parseGo.eq_def] at h
    cases h
  | case3 c rest acc stk hmv ih =>
    intro hacc hstk A h
    rw [parseGo.eq_def] at h
    simp only [hmv, if_true] at h
    refine ih ?_ hstk A h
    intro x hx
    rcases List.mem_append.mp hx with hx | hx
    · exact hacc x hx
    · simp only [List.mem_singleton] at hx
      subst hx
      exact WFN.mv _ (by simp)
  | case4 c rest acc stk hmv had ih =>
    intro hacc hstk A h
    rw [parseGo.eq_def] at h
    simp only [hmv, had, if_true, if_false, Bool.false_eq_true] at h
    refine ih ?_ hstk A h
    intro x hx
    rcases List.mem_append.mp hx with hx | hx
    · exact hacc x hx
    · simp only [List.mem_singleton] at hx
      subst hx
      exact WFN.ad _ (by simp)
  | case5 c rest acc stk hmv had hdot ih =>
    intro hacc hstk A h
    rw [parseGo.eq_def] at h
    simp only [hmv, had, hdot, if_true, if_false, Bool.false_eq_true] at h
    refine ih ?_ hstk A h
    intro x hx
    rcases List.mem_append.mp hx with hx | hx
    · exact hacc x hx
    · simp only [List.mem_singleton] at hx
      subst hx
      exact WFN.out
  | case6 c rest acc stk hmv had hdot hcom ih =>
    intro hacc hstk A h
    rw [parseGo.eq_def] at h
    simp only [hmv, had, hdot, hcom, if_true, if_false, Bool.false_eq_true] at h
    refine ih ?_ hstk A h
    intro x hx
    rcases List.mem_append.mp hx with hx | hx
    · exact hacc x hx
    · simp only [List.mem_singleton] at hx
      subst hx
      exact WFN.inp
  | case7 c rest acc stk hmv had hdot hcom hlb ih =>
    intro hacc hstk A h
    rw [parseGo.eq_def] at h
    simp only [hmv, had, hdot, hcom, hlb, if_true, if_false, Bool.false_eq_true] at h
    refine ih ?_ ?_ A h
    · intro x hx
      cases hx
    · intro e he
      rcases List.mem_cons.mp he with he | he
      · subst he
        exact hacc
      · exact hstk e he
  | case8 c rest acc hmv had hdot hcom hlb hrb =>
    intro hacc hstk A h
    rw [parseGo.eq_def] at h
    simp [hmv, had, hdot, hcom, hlb, hrb] at h
  | case9 c rest acc hmv had hdot hcom hlb hrb outer stk' ih =>
    intro hacc hstk A h
    rw [parseGo.eq_def] at h
    simp only [hmv, had, hdot, hcom, hlb, hrb, if_true, if_false, Bool.false_eq_true] at h
    refine ih ?_ ?_ A h
    · intro x hx
      rcases List.mem_append.mp hx with hx | hx
      · exact hstk outer (List.mem_cons_self _ _) x hx
      · simp only [List.mem_singleton] at hx
        subst hx
        exact WFN.loop _ hacc
    · intro e he
      exact hstk e (List.mem_cons_of_mem _ he)
  | case10 c rest acc stk hmv had hdot hcom hlb hrb hnl ih =>
    intro hacc hstk A h
    rw [parseGo.eq_def] at h
    simp only [hmv, had, hdot, hcom, hlb, hrb, hnl, if_true, if_false,
      Bool.false_eq_true] at h
    exact ih hacc hstk A h
  | case11 c rest acc stk hmv had hdot hcom hlb hrb hnl ih =>
    intro hacc hstk A h
    rw [parseGo.eq_def] at h
    simp only [hmv, had, hdot, hcom, hlb, hrb, hnl, if_true, if_false,
      Bool.false_eq_true] at h
    exact ih hacc hstk A h

theorem conf_init (A : List Node) : Conf (flatU 0 A) 0 A [] :=
  Conf.nil 0 A (fun i => by rw [Nat.zero_add])

theorem mrun_of_run (C : List Op) (fuel : Nat) (m : MState) (s : EState)
    (hrel : MRel C m s) (hwf : MWF m) (r : Except RuntimeErrorKind Unit)
    (s' : EState) (h : run C fuel s = some (r, s')) :
    ∃ m', mrun fuel m = some (r, m') ∧ m'.out = s'.out := by
  have hobs := lockstep_run C fuel m s hrel hwf
  rw [h] at hobs
  cases hm : mrun fuel m with
  | none =>
    rw [hm] at hobs
    cases hobs
  | some p =>
    obtain ⟨r2, m'⟩ := p
    rw [hm] at hobs
    simp only [Option.map_some'] at hobs
    obtain ⟨h1, h2⟩ := Prod.mk.injEq .. ▸ Option.some.inj hobs
    exact ⟨m', by rw [h1], h2⟩

theorem run_of_mrun (C : List Op) (fuel : Nat) (m : MState) (s : EState)
    (hrel : MRel C m s) (hwf : MWF m) (r : Except RuntimeErrorKind Unit)
    (m' : MState) (h : mrun fuel m = some (r, m')) :
    ∃ s', run C fuel s = some (r, s') ∧ s'.out = m'.out := by
  have hobs := lockstep_run C fuel m s hrel hwf
  rw [h] at hobs
  cases hs : run C fuel s with
  | none =>
    rw [hs] at hobs
    cases hobs
  | some p =>
    obtain ⟨r2, s'⟩ := p
    rw [hs] at hobs
    simp only [Option.map_some'] at hobs
    obtain ⟨h1, h2⟩ := Prod.mk.injEq .. ▸ Option.some.inj hobs
    exact ⟨s', by rw [← h1], h2.symm⟩

/-- C4: for every source text whose unfolded translation executes within the
tape bounds (it runs to successful completion), executing the folded
translation produced by `build` and the unfolded unit-delta translation
`buildU` with identical input streams produces identical output byte
sequences. -/
theorem fold_unfold_equiv (code : List Nat) (F U : List Op)
    (rdr : List (Except String Nat)) (wr : List (Option String))
    (fuel : Nat) (sU : EState)
    (hF : build code = .ok F) (hU : buildU code = .ok U)
    (hrun : run U fuel (initState rdr wr) = some (.ok (), sU)) :
    ∃ fuel2 sF, run F fuel2 (initState rdr wr) = some (.ok (), sF) ∧
      sF.out = sU.out := by
  have hinvF : GInv foldAst [] [] [] [] := by
    have h0 := GInv.nil (g := foldAst) []
    rwa [foldAst_nil, flatU_nil] at h0
  have hinvU : GInv id [] [] [] [] := by
    have h0 := GInv.nil (g := id) []
    rwa [show id ([] : List Node) = [] from rfl, flatU_nil] at h0
  obtain ⟨A, hpA, hFeq⟩ := buildGo_flat code 1 1 [] [] [] [] hinvF F hF
  obtain ⟨A2, hpA2, hUeq⟩ := buildUGo_flat code [] [] 1 1 [] [] hinvU U hU
  rw [hpA] at hpA2
  have hA2 : A = A2 := Option.some.inj hpA2
  subst hA2
  subst hFeq
  subst hUeq
  have hwfA : WFL A :=
    parseGo_wf code [] [] (fun x hx => absurd hx (List.not_mem_nil x))
      (fun e he => absurd he (List.not_mem_nil e)) A hpA
  have hrelU : MRel (flatU 0 A) ⟨A, [], fun _ => 0, 0, rdr, wr, []⟩
      (initState rdr wr) :=
    ⟨conf_init A, rfl, rfl, rfl, rfl, rfl⟩
  have hwfU : MWF ⟨A, [], fun _ => 0, 0, rdr, wr, []⟩ :=
    ⟨hwfA, fun p hp => absurd hp (List.not_mem_nil p)⟩
  obtain ⟨mAend, hmArun, hmAout⟩ := mrun_of_run (flatU 0 A) fuel
    ⟨A, [], fun _ => 0, 0, rdr, wr, []⟩ (initState rdr wr) hrelU hwfU
    (.ok ()) sU hrun
  have hfrel : FRel ⟨A, [], fun _ => 0, 0, rdr, wr, []⟩
      ⟨foldAst A, [], fun _ => 0, 0, rdr, wr, []⟩ :=
    ⟨rfl, rfl, rfl, rfl, Or.inl ⟨rfl, rfl, rfl⟩⟩
  obtain ⟨fuel2, mFend, hmFrun, hmFout⟩ := fold_sim fuel
    ⟨A, [], fun _ => 0, 0, rdr, wr, []⟩
    ⟨foldAst A, [], fun _ => 0, 0, rdr, wr, []⟩ mAend hmArun hfrel
    (fun j => by show (0 : Nat) < 256; omega)
  have hrelF : MRel (flatU 0 (foldAst A))
      ⟨foldAst A, [], fun _ => 0, 0, rdr, wr, []⟩ (initState rdr wr) :=
    ⟨conf_init (foldAst A), rfl, rfl, rfl, rfl, rfl⟩
  have hwfF : MWF ⟨foldAst A, [], fun _ => 0, 0, rdr, wr, []⟩ :=
    ⟨foldAst_wfl A, fun p hp => absurd hp (List.not_mem_nil p)⟩
  obtain ⟨sF, hsFrun, hsFout⟩ := run_of_mrun (flatU 0 (foldAst A)) fuel2
    ⟨foldAst A, [], fun _ => 0, 0, rdr, wr, []⟩ (initState rdr wr) hrelF hwfF
    (.ok ()) mFend hmFrun
  refine ⟨fuel2, sF, hsFrun, ?_⟩
  rw [hsFout, hmFout, hmAout]

theorem fold_unfold_equiv_witness :
    ∃ fuel2 sF, run [Op.out] fuel2 (initState [] []) = some (.ok (), sF) ∧
      sF.out = (⟨3, fun _ => 0, 0, [], [], [0]⟩ : EState).out :=
  fold_unfold_equiv [62, 60, 46] [Op.out] [Op.move 1, Op.move (-1), Op.out]
    [] [] 4 ⟨3, fun _ => 0, 0, [], [], [0]⟩
    (by simp [build, buildGo, isMv, isAd, mvD, adD, List.dropWhile, List.takeWhile])
    (by simp [buildU, buildUGo, isMv, isAd, mvD, adD])
    (by rfl)
